import Mathlib

/-!
Verification development for a prototype NLL borrow checker.

The definitions below are a shallow embedding of the `nll` crate:
the IR data model (`nll-repr/src/repr/mod.rs`), the function graph
(`nll/src/graph.rs`), the environment (`nll/src/env.rs`), liveness
(`nll/src/liveness.rs`), region inference (`nll/src/infer.rs`,
`nll/src/regionck.rs`), the loans-in-scope dataflow
(`nll/src/loans_in_scope.rs`), the borrow checker
(`nll/src/borrowck.rs`) and error reconciliation (`nll/src/errors.rs`).

Machine maps are modelled as association lists, interned strings as
`String`, and `panic!`/`assert!` as `Except String` failures.  Loops
that the source runs to a fixed point are modelled with explicit fuel;
every theorem that depends on a fixed point either supplies enough fuel
for the concrete input or takes stabilization as a hypothesis.
-/

set_option maxHeartbeats 1000000

namespace Borrowck

abbrev VarName := String
abbrev RegName := String
abbrev FieldNm := String
abbrev StructNm := String
abbrev BlockNm := String

/-- `repr::BorrowKind`. -/
inductive BorrowKind where
  | mut
  | shared
deriving DecidableEq, Repr

/-- `repr::Variance`. -/
inductive Variance where
  | co
  | contra
  | inv
deriving DecidableEq, Repr

/-- `repr::Variance::invert`. -/
def Variance.invert : Variance → Variance
  | .co => .contra
  | .contra => .co
  | .inv => .inv

/-- `repr::Variance::xform`. -/
def Variance.xform : Variance → Variance → Variance
  | .co, v => v
  | .contra, v => v.invert
  | .inv, _ => .inv

/-- `repr::BorrowKind::variance`. -/
def BorrowKind.variance : BorrowKind → Variance
  | .mut => .inv
  | .shared => .co

/-- `repr::Region`: free (named) or bound region. -/
inductive RRegion where
  | free (n : RegName)
  | bound (i : Nat)
deriving DecidableEq, Repr

/-- `repr::Path`: a variable or a field extension; the field `*`
denotes a dereference. -/
inductive Path where
  | var (v : VarName)
  | ext (base : Path) (f : FieldNm)
deriving DecidableEq, Repr

/-- The distinguished dereference field name (`FieldName::star`). -/
def starField : FieldNm := "*"

/-- `repr::Path::base`. -/
def Path.base : Path → VarName
  | .var v => v
  | .ext b _ => b.base

/-- `repr::Path::prefixes`: the path and all its prefixes, longest
first. -/
def Path.prefixList : Path → List Path
  | .var v => [.var v]
  | .ext b f => .ext b f :: b.prefixList

/-- `repr::Path::write_def`: the variable fully overwritten by
`p = ...`, if `p` is a bare variable. -/
def Path.writeDef : Path → Option VarName
  | .var v => some v
  | .ext _ _ => none

/-- `repr::Path::write_use`: the variable read by the write `p = ...`
when `p` is a projection. -/
def Path.writeUse : Path → Option VarName
  | .var _ => none
  | .ext b f => some (Path.ext b f).base

mutual
/-- `repr::Ty`.  The parameter vector is represented by the mutually
inductive list `TyParams` so that the recursions over types stay
structural (and hence compute definitionally). -/
inductive Ty where
  | ref (r : RRegion) (k : BorrowKind) (t : Ty)
  | unit
  | struct (n : StructNm) (params : TyParams)
  | bound (i : Nat)

/-- A vector of `repr::TyParameter`s. -/
inductive TyParams where
  | nil
  | cons (p : TyParam) (rest : TyParams)

/-- `repr::TyParameter`. -/
inductive TyParam where
  | region (r : RRegion)
  | ty (t : Ty)
end

/-- Length of a parameter vector. -/
def TyParams.length : TyParams → Nat
  | .nil => 0
  | .cons _ rest => rest.length + 1

/-- Indexing into a parameter vector (`params[index]`). -/
def TyParams.getIdx : TyParams → Nat → Option TyParam
  | .nil, _ => none
  | .cons p _, 0 => some p
  | .cons _ rest, i + 1 => rest.getIdx i

/-- View of a parameter vector as a plain list (used in
statements). -/
def TyParams.toList : TyParams → List TyParam
  | .nil => []
  | .cons p rest => p :: rest.toList

/-- A program point `(block, action index)`; blocks are identified by
their index in the function graph (`env::Point`). -/
structure Point where
  block : Nat
  action : Nat
deriving DecidableEq, Repr

/-! ### Error reporting (`nll/src/errors.rs`) -/

/-- `errors::ReportedError`. -/
structure RepError where
  point : Point
  message : String
deriving DecidableEq, Repr

/-- Substring test, modelling Rust `String::contains(&str)`. -/
def strContains (hay needle : String) : Bool :=
  let h := hay.toList
  let s := needle.toList
  (List.range (h.length + 1)).any (fun i => s.isPrefixOf (h.drop i))

/-- First message registered at point `p` (`HashMap::get`). -/
def findMsg : List (Point × String) → Point → Option String
  | [], _ => none
  | (q, m) :: rest, p => if q = p then some m else findMsg rest p

/-- Remove the expectation registered at `p` (`HashMap::remove`; the
map never holds two entries for one point, `expect_error` asserts it). -/
def eraseKey (l : List (Point × String)) (p : Point) : List (Point × String) :=
  l.filter (fun e => decide (e.1 ≠ p))

/-- The loop body of `ErrorReporting::reconcile_errors`, processing
reported errors in pop order: an error survives (and is returned at
once) unless an expectation is registered at its point whose message it
contains; afterwards any remaining expectation is returned as an
error. -/
def reconcileGo : List RepError → List (Point × String) → Except RepError Unit
  | [], exps =>
    match exps with
    | [] => .ok ()
    | (p, _) :: _ =>
      .error ⟨p, "no error reported on this point, but we expected one"⟩
  | e :: rest, exps =>
    match findMsg exps e.point with
    | some m =>
      if strContains e.message m then reconcileGo rest (eraseKey exps e.point)
      else .error e
    | none => .error e

/-- `ErrorReporting::reconcile_errors`: `reported_errors.pop()` takes
the vector from the back, so the list is processed reversed. -/
def reconcileErrors (reported : List RepError) (exps : List (Point × String)) :
    Except RepError Unit :=
  reconcileGo reported.reverse exps

/-! ### IR model (`nll-repr/src/repr/mod.rs`) -/

/-- `repr::Constraint`; only the `Outlives` form is handled by the
analysis (the rich forms make `populate_inference` panic). -/
inductive ConstraintAst where
  | outlives (sup sub : RegName)
  | forAllC (ns : List RegName) (c : ConstraintAst)
  | existsC (ns : List RegName) (c : ConstraintAst)
  | impliesC (hyps : List (RegName × RegName)) (c : ConstraintAst)
  | allC (cs : List ConstraintAst)

/-- `repr::ActionKind`. -/
inductive ActionKind where
  | init (dest : Path) (sources : List Path)
  | borrow (dest : Path) (r : RegName) (k : BorrowKind) (source : Path)
  | assign (dest : Path) (source : Path)
  | constr (c : ConstraintAst)
  | useA (p : Path)
  | dropA (p : Path)
  | storageDead (v : VarName)
  | skolemizedEnd (r : RegName)
  | noop

/-- `repr::Action` (the `borrowck.rs` revision reads
`should_have_error` as a boolean marker; `regionck.rs` couples it with
the expected message, which we carry separately). -/
structure ActionData where
  kind : ActionKind
  shouldHaveError : Bool
  expectedMsg : Option String := none

/-- `repr::BasicBlockData`. -/
structure BlockData where
  name : BlockNm
  actions : List ActionData
  succs : List BlockNm

/-- `repr::RegionDecl`. -/
structure RegionDecl where
  name : RegName
  outlives : List RegName
deriving DecidableEq, Repr

/-- `repr::StructParameter`'s kind field. -/
inductive ParamKind where
  | regionK
  | typeK
deriving DecidableEq, Repr

/-- `repr::StructParameter`. -/
structure StructParam where
  kind : ParamKind
  variance : Variance
  mayDangle : Bool
deriving DecidableEq, Repr

/-- `repr::FieldDecl`. -/
structure FieldDecl where
  name : FieldNm
  ty : Ty

/-- `repr::StructDecl`. -/
structure StructDecl where
  name : StructNm
  params : List StructParam
  fields : List FieldDecl

/-- `repr::VariableDecl`. -/
structure VarDecl where
  var : VarName
  ty : Ty

/-- `repr::PointName` (used by assertions). -/
inductive PointName where
  | code (b : BlockNm)
  | skolemizedEnd (r : RegName)
deriving DecidableEq, Repr

/-- `repr::Point`: a user-written point literal. -/
structure RPoint where
  block : PointName
  action : Nat
deriving DecidableEq, Repr

/-- `repr::Assertion`. -/
inductive Assertion where
  | eqA (r : RegName) (lit : List RPoint)
  | inA (r : RegName) (p : RPoint)
  | notInA (r : RegName) (p : RPoint)
  | liveA (v : VarName) (b : BlockNm)
  | notLiveA (v : VarName) (b : BlockNm)
  | regionLiveA (r : RegName) (b : BlockNm)
  | regionNotLiveA (r : RegName) (b : BlockNm)

/-- `repr::Func`.  `data` is a `BTreeMap` in the source; the list is
kept in the map's key order. -/
structure Func where
  decls : List VarDecl
  structs : List StructDecl
  regions : List RegionDecl
  blocks : List BlockData
  assertions : List Assertion

/-! ### Region roots and the function graph (`nll/src/graph.rs`) -/

/-- Insert a name into a list treated as a set. -/
def addName (l : List RegName) (n : RegName) : List RegName :=
  if n ∈ l then l else n :: l

/-- State of `RegionRoots`: which regions have a (non-cyclic, in the
traversal sense) predecessor, and which have been visited. -/
structure RootsSt where
  hasPred : List RegName
  visited : List RegName

/-- The successor lists of the outlives graph: each declared
`a: b` clause contributes an edge `b -> a`
(`RegionRoots::extract`). -/
def outlivesSuccs (regions : List RegionDecl) (n : RegName) : List RegName :=
  regions.flatMap fun rd =>
    rd.outlives.filterMap fun b => if b = n then some rd.name else none

/-- One activation record of `RegionRoots::dfs`: the DFS stack at the
time of the call and the remaining successor work of that call. -/
abbrev RootsFrame := List RegName × List RegName

/-- `RegionRoots::dfs`, linearized with an explicit frame stack (one
machine step per source step, structural on fuel so that it computes).
Processing a region `r` from the top frame: a region on the current
DFS stack is skipped (a cycle); otherwise it is marked as having a
predecessor when the stack is non-empty; an unvisited region is pushed
as a new frame carrying its successors. -/
def rootsDfsRun (succs : RegName → List RegName) :
    Nat → RootsSt → List RootsFrame → RootsSt
  | 0, st, _ => st
  | _ + 1, st, [] => st
  | fuel + 1, st, (_, []) :: frames => rootsDfsRun succs fuel st frames
  | fuel + 1, st, (stack, r :: pend) :: frames =>
    if r ∈ stack then rootsDfsRun succs fuel st ((stack, pend) :: frames)
    else
      let st1 := if stack.isEmpty then st
                 else { st with hasPred := addName st.hasPred r }
      if r ∈ st1.visited then
        rootsDfsRun succs fuel st1 ((stack, pend) :: frames)
      else
        let st2 := { st1 with visited := addName st1.visited r }
        rootsDfsRun succs fuel st2
          ((stack ++ [r], succs r) :: (stack, pend) :: frames)

/-- Fuel that always covers a whole DFS (three steps per region and
per outlives edge is generous: each region is expanded at most once
and each edge inspected at most once). -/
def rootsFuel (regions : List RegionDecl) : Nat :=
  3 * (regions.length +
    (regions.map fun rd => rd.outlives.length).sum + 2)

/-- `RegionRoots::extract`: run the DFS from every region in
declaration order and keep the regions never marked as having a
predecessor. -/
def regionRootsExtract (regions : List RegionDecl) : List RegName :=
  let succs := outlivesSuccs regions
  let st := regions.foldl
    (fun st rd => rootsDfsRun succs (rootsFuel regions) st [([], [rd.name])])
    ⟨[], []⟩
  (regions.map fun rd => rd.name).filter fun n => ¬ n ∈ st.hasPred

/-- `graph::BasicBlockKind`. -/
inductive BlockKind where
  | code (b : BlockNm)
  | skolemizedEnd (r : RegName)
deriving DecidableEq, Repr

/-- The function graph: code blocks in map order followed by one
skolemized-end block per region declaration. -/
structure FuncGraph where
  func : Func
  startBlock : Nat
  succ : List (List Nat)

namespace FuncGraph

def numCode (g : FuncGraph) : Nat := g.func.blocks.length

def numNodes (g : FuncGraph) : Nat := g.numCode + g.func.regions.length

/-- Index of a code block by name. -/
def blockIdx (f : Func) (n : BlockNm) : Option Nat :=
  f.blocks.findIdx? fun b => b.name = n

/-- `FuncGraph::skolemized_end`: index of a region's synthetic
end-block. -/
def skolemizedEndIdx (f : Func) (r : RegName) : Option Nat :=
  (f.regions.findIdx? fun rd => rd.name = r).map fun j => f.blocks.length + j

/-- The actions of a block: declared actions for a code block, the
single synthetic `SkolemizedEnd` action for an end-block. -/
def blockActions (g : FuncGraph) (i : Nat) : List ActionData :=
  if h : i < g.numCode then
    (g.func.blocks.get ⟨i, h⟩).actions
  else
    match g.func.regions.get? (i - g.numCode) with
    | some rd => [⟨.skolemizedEnd rd.name, false, none⟩]
    | none => []

def successors (g : FuncGraph) (i : Nat) : List Nat :=
  (g.succ.get? i).getD []

end FuncGraph

/-- `FuncGraph::new`: per-code-block successor lists; a block with no
declared successors gets edges to the root skolemized ends. -/
def codeBlockSuccs (f : Func) (roots : List Nat) (b : BlockData) :
    Option (List Nat) := do
  let declared ← b.succs.mapM fun n => FuncGraph.blockIdx f n
  pure (declared ++ (if b.succs.isEmpty then roots else []))

/-- `FuncGraph::new`: successor list of the skolemized end of region
`n`, one edge `end(b) -> end(a)` per declared clause `a: b`. -/
def skolSuccs (f : Func) (n : RegName) : Option (List Nat) :=
  (outlivesSuccs f.regions n).mapM fun a => FuncGraph.skolemizedEndIdx f a

/-- `FuncGraph::new` (returns `none` where the source panics: a
successor or START that does not resolve). -/
def funcGraphNew (f : Func) : Option FuncGraph := do
  let roots ← (regionRootsExtract f.regions).mapM fun rn =>
    FuncGraph.skolemizedEndIdx f rn
  let codeSucc ← f.blocks.mapM fun b => codeBlockSuccs f roots b
  let skolSucc ← f.regions.mapM fun rd => skolSuccs f rd.name
  let start ← FuncGraph.blockIdx f "START"
  pure ⟨f, start, codeSucc ++ skolSucc⟩

/-! ### Reverse post-order (`graph-algorithms/src/iterate/mod.rs`) -/

/-- `post_order_walk`, linearized with an explicit frame stack
`(node, pending successors)`; a node joins the post-order once its
frame is exhausted.  State is `(result, visited)`. -/
def postOrderRun (g : FuncGraph) :
    Nat → List Nat × List Nat → List (Nat × List Nat) → List Nat × List Nat
  | 0, st, _ => st
  | _ + 1, st, [] => st
  | fuel + 1, (result, visited), (n, []) :: frames =>
      postOrderRun g fuel (result ++ [n], visited) frames
  | fuel + 1, (result, visited), (n, s :: pend) :: frames =>
      if s ∈ visited then
        postOrderRun g fuel (result, visited) ((n, pend) :: frames)
      else
        postOrderRun g fuel (result, s :: visited)
          ((s, g.successors s) :: (n, pend) :: frames)

/-- Total edge count of the graph (used only to size fuel). -/
def FuncGraph.totalEdges (g : FuncGraph) : Nat :=
  (g.succ.map List.length).sum

/-- `reverse_post_order`: DFS post-order from START, reversed. -/
def reversePostOrder (g : FuncGraph) : List Nat :=
  let fuel := 3 * (g.numNodes + g.totalEdges + 2)
  ((postOrderRun g fuel ([], [g.startBlock])
    [(g.startBlock, g.successors g.startBlock)]).1).reverse

/-! ### Environment (`nll/src/env.rs`) and type operations -/

/-- `repr::Region::assert_free`. -/
def RRegion.assertFreeE : RRegion → Except String RegName
  | .free n => .ok n
  | .bound _ => .error "assert_free: encountered bound region"

/-- `repr::Region::subst`. -/
def RRegion.substP (params : TyParams) : RRegion → Except String RRegion
  | .free n => .ok (.free n)
  | .bound b =>
    if b < params.length then
      match params.getIdx (params.length - 1 - b) with
      | some (.region r) => .ok r
      | some (.ty _) => .error "subst: encountered type, not region"
      | none => .error "subst: parameter index out of range"
    else .error "subst: parameter index out of range"

mutual
/-- `repr::Ty::subst`. -/
def Ty.substP (params : TyParams) : Ty → Except String Ty
  | .bound b =>
    if b < params.length then
      match params.getIdx (params.length - 1 - b) with
      | some (.ty t) => .ok t
      | some (.region _) => .error "subst: encountered region, not type"
      | none => .error "subst: parameter index out of range"
    else .error "subst: parameter index out of range"
  | .ref rn k t => do
      let rn2 ← RRegion.substP params rn
      let t2 ← Ty.substP params t
      pure (.ref rn2 k t2)
  | .unit => pure .unit
  | .struct s ps => do
      let ps2 ← TyParams.substAll params ps
      pure (.struct s ps2)

/-- `repr::TyParameter::subst`. -/
def TyParam.substP (params : TyParams) : TyParam → Except String TyParam
  | .region r => do pure (.region (← RRegion.substP params r))
  | .ty t => do pure (.ty (← Ty.substP params t))

/-- Substitution mapped over a parameter vector. -/
def TyParams.substAll (params : TyParams) : TyParams → Except String TyParams
  | .nil => pure .nil
  | .cons p rest => do
      pure (.cons (← TyParam.substP params p) (← TyParams.substAll params rest))
end

mutual
/-- `repr::Ty::walk_regions`. -/
def Ty.walkRegionsE : Ty → Except String (List RRegion)
  | .ref rn _ t => do pure (rn :: (← t.walkRegionsE))
  | .unit => pure []
  | .struct _ ps => TyParams.walkList ps
  | .bound _ => .error "encountered bound type when walking regions"

/-- `walk_regions` over a parameter vector. -/
def TyParams.walkList : TyParams → Except String (List RRegion)
  | .nil => pure []
  | .cons (.region rn) rest => do pure (rn :: (← TyParams.walkList rest))
  | .cons (.ty t) rest => do
      pure ((← t.walkRegionsE) ++ (← TyParams.walkList rest))
end

/-- The memoized environment: the graph plus the reverse post-order
(`Environment::new`; dominators, reachability and the loop tree are
not consumed by the components modelled here). -/
structure Env where
  graph : FuncGraph
  rpo : List Nat

def mkEnv (g : FuncGraph) : Env := ⟨g, reversePostOrder g⟩

namespace Env

/-- `var_map` lookup (`Environment::var_ty`). -/
def varTy (e : Env) (v : VarName) : Except String Ty :=
  match e.graph.func.decls.find? (fun d => d.var = v) with
  | some d => .ok d.ty
  | none => .error "no variable with this name"

/-- `struct_map` lookup. -/
def structDecl (e : Env) (n : StructNm) : Except String StructDecl :=
  match e.graph.func.structs.find? (fun s => s.name = n) with
  | some s => .ok s
  | none => .error "no struct with this name"

end Env

/-- `repr::StructDecl::field_decl`. -/
def StructDecl.fieldDecl (sd : StructDecl) (f : FieldNm) :
    Except String FieldDecl :=
  match sd.fields.find? (fun fd => fd.name = f) with
  | some fd => .ok fd
  | none => .error "no field with this name"

namespace Env

/-- `Environment::field_ty`. -/
def fieldTy (e : Env) (baseTy : Ty) (f : FieldNm) : Except String Ty :=
  match baseTy with
  | .ref _ _ t =>
      if f = starField then .ok t
      else .error "cannot index reference except via star"
  | .unit => .error "cannot index unit type"
  | .struct n ps => do
      let sd ← e.structDecl n
      let fd ← sd.fieldDecl f
      Ty.substP ps fd.ty
  | .bound _ => .error "field_ty: unexpected bound type"

/-- `Environment::path_ty`. -/
def pathTy (e : Env) : Path → Except String Ty
  | .var v => e.varTy v
  | .ext b f => do e.fieldTy (← e.pathTy b) f

/-- `Environment::supporting_prefixes`: all prefixes of the path, but
the walk stops after dereferencing a shared reference. -/
def supportingPrefixesE (e : Env) : Path → Except String (List Path)
  | .var v => .ok [.var v]
  | .ext b f => do
      match ← e.pathTy b with
      | .ref _ .shared _ =>
          if f = starField then .ok [.ext b f]
          else .error "expected star extension of a reference"
      | .ref _ .mut _ => do pure (.ext b f :: (← e.supportingPrefixesE b))
      | .struct _ _ => do pure (.ext b f :: (← e.supportingPrefixesE b))
      | .unit => .error "unit has no fields"
      | .bound _ => .error "unexpected bound type"

/-- `Environment::end_point`. -/
def endPoint (e : Env) (b : Nat) : Point := ⟨b, (e.graph.blockActions b).length⟩

/-- `Environment::start_point`. -/
def startPoint (_e : Env) (b : Nat) : Point := ⟨b, 0⟩

/-- `Environment::successor_points`. -/
def successorPoints (e : Env) (p : Point) : List Point :=
  if p = e.endPoint p.block then
    (e.graph.successors p.block).map fun b => ⟨b, 0⟩
  else
    [⟨p.block, p.action + 1⟩]

end Env

/-! ### The borrow checker (`nll/src/borrowck.rs`) -/

/-- `loans_in_scope::Loan`; `region` holds the loan's region value (a
set of points, see `regionValue`). -/
structure Loan where
  point : Point
  path : Path
  kind : BorrowKind
  region : List Point

/-- Borrow-check diagnostics (`borrowck::BorrowError`, by constructor
rather than by formatted message). -/
inductive BorrowErr where
  | forRead (point : Point) (path : Path) (loanPath : Path) (loanPoint : Point)
  | forWrite (point : Point) (path : Path) (loanPath : Path) (loanPoint : Point)
  | forDrop (point : Point) (path : Path) (loanPath : Path) (loanPoint : Point)
  | forStorageDead (point : Point) (v : VarName) (loanPath : Path)
      (loanPoint : Point)
  | noError (point : Point)

/-- Effectful filter used to model the loan-selection iterators. -/
def filterLoansE (f : Loan → Except String Bool) :
    List Loan → Except String (List Loan)
  | [] => .ok []
  | l :: rest =>
    match f l with
    | .error msg => .error msg
    | .ok b =>
      match filterLoansE f rest with
      | .error msg => .error msg
      | .ok tail => .ok (if b then l :: tail else tail)

/-- The predicate of `BorrowCheck::find_loans_that_intersect`: the loan
path is among the access path's prefixes, or the access path is among
the loan path's supporting prefixes. -/
def loanIntersectsE (e : Env) (accessPath : Path) (loan : Loan) :
    Except String Bool := do
  let sps ← e.supportingPrefixesE loan.path
  pure (decide (loan.path ∈ accessPath.prefixList) || decide (accessPath ∈ sps))

/-- `BorrowCheck::frozen_by_borrow_of`: walk the borrowed path back
toward its base, stopping at the first dereference. -/
def frozenByBorrowOf (e : Env) : Path → Except String (List Path)
  | .var v => .ok [.var v]
  | .ext b f => do
      match ← e.pathTy b with
      | .ref _ _ _ =>
          if f = starField then .ok [.ext b f]
          else .error "expected star extension of a reference"
      | .struct _ _ => do pure (.ext b f :: (← frozenByBorrowOf e b))
      | .unit => .error "unit has no fields"
      | .bound _ => .error "unexpected bound type"

/-- The predicate of `BorrowCheck::find_loans_that_freeze`. -/
def loanFreezesE (e : Env) (accessPath : Path) (loan : Loan) :
    Except String Bool := do
  let frozen ← frozenByBorrowOf e loan.path
  pure (decide (accessPath ∈ frozen) ||
        decide (loan.path ∈ accessPath.prefixList))

/-- `borrowck::Depth`. -/
inductive Depth where
  | shallow
  | deep

/-- `borrowck::Mode`. -/
inductive Mode where
  | read
  | write

/-- The error-selection loop of `BorrowCheck::check_borrows`. -/
def checkBorrowsLoop (mode : Mode) (point : Point) (path : Path) :
    List Loan → Option BorrowErr
  | [] => none
  | loan :: rest =>
    match mode, loan.kind with
    | .read, .shared => checkBorrowsLoop mode point path rest
    | .read, .mut => some (.forRead point path loan.path loan.point)
    | .write, _ => some (.forWrite point path loan.path loan.point)

/-- `BorrowCheck::check_borrows`. -/
def checkBorrows (e : Env) (point : Point) (loans : List Loan)
    (depth : Depth) (mode : Mode) (path : Path) :
    Except String (Option BorrowErr) :=
  match (match depth with
    | .shallow => filterLoansE (loanFreezesE e path) loans
    | .deep => filterLoansE (loanIntersectsE e path) loans) with
  | .error msg => .error msg
  | .ok picked => .ok (checkBorrowsLoop mode point path picked)

/-- `BorrowCheck::check_read`: a deep read. -/
def checkRead (e : Env) (point : Point) (loans : List Loan) (path : Path) :
    Except String (Option BorrowErr) :=
  checkBorrows e point loans .deep .read path

/-- `BorrowCheck::check_shallow_write`. -/
def checkShallowWrite (e : Env) (point : Point) (loans : List Loan)
    (path : Path) : Except String (Option BorrowErr) :=
  checkBorrows e point loans .shallow .write path

/-- `BorrowCheck::check_mut_borrow`: a deep write. -/
def checkMutBorrow (e : Env) (point : Point) (loans : List Loan)
    (path : Path) : Except String (Option BorrowErr) :=
  checkBorrows e point loans .deep .write path

/-- `Path::inner_deref_nearest` (on the `MayDangle` extension trait):
the `loc` with `path` extending `*loc`, `*loc` extending `root`, and no
deref between `*loc` and `root`. -/
def innerDerefNearestGo (root : Path) : Path → Option Path → Option Path
  | .var v, cand => if Path.var v = root then cand else none
  | .ext b f, cand =>
      if Path.ext b f = root then cand
      else innerDerefNearestGo root b (if f = starField then some b else cand)

/-- `MayDangle::all_allow_dangling_up_to`: walk from the candidate
`loc` up to `root`; a reference field of a free region, or of a
non-`may_dangle` parameter, forbids dangling. -/
def allAllowDanglingUpTo (e : Env) (root : Path) : Path → Except String Bool
  | .var v =>
      if Path.var v = root then pure true
      else .error "dangling walk: loc does not extend root"
  | .ext p f => do
      if f = starField then
        .error "unexpected deref extension in dangling walk"
      else
      let pTy ← e.pathTy p
      match pTy with
      | .struct sName _ => do
          let sd ← e.structDecl sName
          let fd ← sd.fieldDecl f
          let cont : Bool ← (match fd.ty with
            | .ref rgn _ _ =>
                match rgn with
                | .free _ => pure false
                | .bound idx =>
                    match sd.params.get? idx with
                    | some sp => pure sp.mayDangle
                    | none => Except.error "parameter index out of range"
            | .unit => Except.error "found unit type during the dangly path walk"
            | .struct _ _ => pure true
            | .bound idx =>
                match sd.params.get? idx with
                | some sp => pure sp.mayDangle
                | none => Except.error "parameter index out of range")
          if cont = false then pure false
          else if Path.ext p f = root then pure true
          else allAllowDanglingUpTo e root p
      | _ => .error "non-deref extension of non-struct type"

/-- `MayDangle::may_dangle_with_respect_to`. -/
def mayDangleWithRespectTo (e : Env) (path root : Path) :
    Except String Bool :=
  match innerDerefNearestGo root path none with
  | none => pure false
  | some loc => allAllowDanglingUpTo e root loc

/-- The error-selection loop of `BorrowCheck::check_drop`: skip loans
whose path may dangle, report the first that does not. -/
def checkDropLoop (e : Env) (point : Point) (path : Path) :
    List Loan → Except String (Option BorrowErr)
  | [] => .ok none
  | loan :: rest =>
    match mayDangleWithRespectTo e loan.path path with
    | .error msg => .error msg
    | .ok true => checkDropLoop e point path rest
    | .ok false => .ok (some (.forDrop point path loan.path loan.point))

/-- `BorrowCheck::check_drop`. -/
def checkDrop (e : Env) (point : Point) (loans : List Loan) (path : Path) :
    Except String (Option BorrowErr) :=
  match filterLoansE (loanIntersectsE e path) loans with
  | .error msg => .error msg
  | .ok picked => checkDropLoop e point path picked

/-- The error-selection loop of `BorrowCheck::check_storage_dead`. -/
def checkStorageDead (e : Env) (point : Point) (loans : List Loan)
    (v : VarName) : Except String (Option BorrowErr) :=
  match filterLoansE (loanFreezesE e (Path.var v)) loans with
  | .error msg => .error msg
  | .ok [] => .ok none
  | .ok (loan :: _) => .ok (some (.forStorageDead point v loan.path loan.point))

/-- Sequential deep reads (the `for b in bs` loop of `Init`). -/
def checkReadsList (e : Env) (point : Point) (loans : List Loan) :
    List Path → Except String (Option BorrowErr)
  | [] => pure none
  | p :: rest => do
      match ← checkRead e point loans p with
      | some err => pure (some err)
      | none => checkReadsList e point loans rest

/-- `BorrowCheck::check_action`. -/
def checkAction (e : Env) (point : Point) (loans : List Loan) :
    ActionKind → Except String (Option BorrowErr)
  | .init a bs => do
      match ← checkShallowWrite e point loans a with
      | some err => pure (some err)
      | none => checkReadsList e point loans bs
  | .assign a b => do
      match ← checkShallowWrite e point loans a with
      | some err => pure (some err)
      | none => checkRead e point loans b
  | .borrow a _ .shared b => do
      match ← checkShallowWrite e point loans a with
      | some err => pure (some err)
      | none => checkRead e point loans b
  | .borrow a _ .mut b => do
      match ← checkShallowWrite e point loans a with
      | some err => pure (some err)
      | none => checkMutBorrow e point loans b
  | .constr _ => pure none
  | .useA p => checkRead e point loans p
  | .dropA p => checkDrop e point loans p
  | .storageDead v => checkStorageDead e point loans v
  | .skolemizedEnd _ => pure none
  | .noop => pure none

/-! ### Region values and inference (`nll/src/infer.rs`) -/

/-- Modelled from the spec: the `Region` value manipulated by
inference.  The file `nll/src/region.rs` in the tree is an older,
dominator-based revision whose API (`Region::new(entry, leaves)`,
`contains(env, point)`, `add_point(env, point)`) does not match its
callers in `infer.rs`, `regionck.rs` and `loans_in_scope.rs`
(`Region::new()`, `may_contain(point)`, `contains(point)`,
`add_point(point) -> bool`); the revision of `Region` those callers
use is not in the tree.  Per the spec, "A region's *value* is a set of
program points", growing monotonically, with `add_point` reporting
whether the set grew; we model the value as a list with set
semantics. -/
def regionAddPoint (value : List Point) (p : Point) : Bool × List Point :=
  if p ∈ value then (false, value) else (true, p :: value)

/-- `Region::may_contain` / `Region::contains` of the set-based
`Region` (see `regionAddPoint`). -/
def regionContains (value : List Point) (p : Point) : Bool :=
  decide (p ∈ value)

/-- `infer::VarDefinition`. -/
structure VarDef where
  name : RegName
  value : List Point
  capped : Bool

/-- `infer::InferenceError`. -/
structure InfError where
  constraintPoint : Point
  name : RegName
deriving DecidableEq, Repr

/-- `infer::Constraint` (`sup ⊇ sub` recorded at `point`). -/
structure ConstraintC where
  sub : Nat
  sup : Nat
  point : Point
deriving DecidableEq, Repr

/-- `infer::InferenceContext`. -/
structure InferCtx where
  defs : List VarDef
  constraints : List ConstraintC
  errors : List InfError

def InferCtx.empty : InferCtx := ⟨[], [], []⟩

/-- `InferenceContext::add_var`. -/
def InferCtx.addVar (cx : InferCtx) (name : RegName) : InferCtx × Nat :=
  ({ cx with defs := cx.defs ++ [⟨name, [], false⟩] }, cx.defs.length)

/-- `InferenceContext::cap_var`. -/
def InferCtx.capVar (cx : InferCtx) (v : Nat) : InferCtx :=
  match cx.defs.get? v with
  | some d => { cx with defs := cx.defs.set v { d with capped := true } }
  | none => cx

/-- `InferenceContext::add_live_point`: growing a capped variable
records an error at the point itself.  (An out-of-range index panics
in the source and cannot arise from the callers; theorems about this
function carry an in-range hypothesis.) -/
def InferCtx.addLivePoint (cx : InferCtx) (v : Nat) (p : Point) : InferCtx :=
  match cx.defs.get? v with
  | none => cx
  | some d =>
    let grew := (regionAddPoint d.value p).1
    let value2 := (regionAddPoint d.value p).2
    let cx2 := { cx with defs := cx.defs.set v { d with value := value2 } }
    if grew && d.capped then
      { cx2 with errors := cx2.errors ++ [⟨p, d.name⟩] }
    else cx2

/-- `InferenceContext::add_outlives`. -/
def InferCtx.addOutlives (cx : InferCtx) (sup sub : Nat) (p : Point) : InferCtx :=
  { cx with constraints := cx.constraints ++ [⟨sub, sup, p⟩] }

/-- `InferenceContext::region`. -/
def InferCtx.regionValue (cx : InferCtx) (v : Nat) : List Point :=
  ((cx.defs.get? v).map fun d => d.value).getD []

/-- The sink rule of `Dfs::copy`: on reaching a point with no
successors, add the skolemized-end point of every free region. -/
def addSkolemizedEnds (e : Env) (target : List Point) (changed : Bool) :
    Bool × List Point :=
  e.graph.func.regions.foldl
    (fun (acc : Bool × List Point) rd =>
      match FuncGraph.skolemizedEndIdx e.graph.func rd.name with
      | some b =>
          let r := regionAddPoint acc.2 ⟨b, 0⟩
          (acc.1 || r.1, r.2)
      | none => acc)
    (changed, target)

/-- The work-list loop of `Dfs::copy`.  `stack` pops from the head;
pushing a successor list therefore prepends its reverse, matching the
`Vec` push/pop order of the source. -/
def dfsCopyGo (e : Env) (fromR : List Point) :
    Nat → List Point → List Point → List Point → Bool → Bool × List Point
  | 0, _, _, target, changed => (changed, target)
  | fuel + 1, visited, stack, target, changed =>
    match stack with
    | [] => (changed, target)
    | p :: rest =>
      if ¬ p ∈ fromR then dfsCopyGo e fromR fuel visited rest target changed
      else if p ∈ visited then dfsCopyGo e fromR fuel visited rest target changed
      else
        let visited := p :: visited
        let r := regionAddPoint target p
        let changed := changed || r.1
        let succ := e.successorPoints p
        if succ.isEmpty then
          let r2 := addSkolemizedEnds e r.2 changed
          dfsCopyGo e fromR fuel visited rest r2.2 r2.1
        else
          dfsCopyGo e fromR fuel visited (succ.reverse ++ rest) r.2 changed

/-- The number of points of the graph (used only to size fuel). -/
def totalPoints (e : Env) : Nat :=
  (List.range e.graph.numNodes).foldl
    (fun acc b => acc + (e.graph.blockActions b).length + 1) 0

/-- `Dfs::copy`. -/
def dfsCopy (e : Env) (fromR target : List Point) (startPt : Point) :
    Bool × List Point :=
  dfsCopyGo e fromR ((totalPoints e + 1) * (e.graph.numNodes + 2))
    [] [startPt] target false

/-- One constraint step of `InferenceContext::solve`: copy the reachable
part of `sub`'s value into `sup`'s value; growth of a capped variable
asserts `point.action > 0` (abort) and records an error at the point
with the action decremented. -/
def solveStep (e : Env) (cx : InferCtx) (c : ConstraintC) :
    Except String (Bool × InferCtx) :=
  match cx.defs.get? c.sub, cx.defs.get? c.sup with
  | some subDef, some supDef =>
    let r := dfsCopy e subDef.value supDef.value c.point
    let cx2 := { cx with defs := cx.defs.set c.sup { supDef with value := r.2 } }
    if r.1 then
      if supDef.capped then
        if c.point.action > 0 then
          .ok (true, { cx2 with errors := cx2.errors ++
            [⟨⟨c.point.block, c.point.action - 1⟩, supDef.name⟩] })
        else .error "assertion failed: constraint.point.action > 0"
      else .ok (true, cx2)
    else .ok (false, cx2)
  | _, _ => .error "region variable index out of range"

/-- One pass of `solve` over all constraints. -/
def solvePass (e : Env) (cx : InferCtx) : Except String (Bool × InferCtx) :=
  cx.constraints.foldlM
    (fun (acc : Bool × InferCtx) c => do
      let r ← solveStep e acc.2 c
      pure (acc.1 || r.1, r.2))
    (false, cx)

/-- The outer `while changed` loop of `solve`. -/
def solveLoop (e : Env) : Nat → InferCtx → Except String InferCtx
  | 0, _ => .error "solve: fuel exhausted"
  | fuel + 1, cx => do
      let r ← solvePass e cx
      if r.1 then solveLoop e fuel r.2 else pure r.2

/-- `InferenceContext::solve`: iterate to a fixed point and hand back
the accumulated errors (the source `mem::replace`s them out). -/
def solveE (e : Env) (cx : InferCtx) :
    Except String (List InfError × InferCtx) := do
  let cx ← solveLoop e
    (cx.defs.length * (totalPoints e + e.graph.func.regions.length + 2) + 2) cx
  pure (cx.errors, { cx with errors := [] })

/-! ### Liveness (`nll/src/liveness.rs`) -/

/-- `liveness::BitKind`. -/
inductive BitKind where
  | used (v : VarName)
  | dropBit (v : VarName)
  | freeRegion (r : RegName)
deriving DecidableEq, Repr

/-- A liveness bit buffer, as a set of bits.  (The source addresses a
fixed bit universe through `bits_map`, which panics on undeclared
variables; programs are assumed closed.) -/
abbrev BitBuf := List BitKind

def bitSet (buf : BitBuf) (b : BitKind) : BitBuf :=
  if b ∈ buf then buf else b :: buf

def bitKill (buf : BitBuf) (b : BitKind) : BitBuf :=
  buf.filter fun x => decide (x ≠ b)

def bitUnion (buf other : BitBuf) : BitBuf :=
  other.foldl bitSet buf

/-- `DefUse::def_use`: `(defs, uses)` of an action. -/
def ActionKind.defUse : ActionKind → List VarName × List VarName
  | .borrow p _ _ q => ([p.base], [q.base])
  | .init a params =>
      (a.writeDef.toList, params.map (fun p => p.base) ++ a.writeUse.toList)
  | .assign a b => (a.writeDef.toList, b.base :: a.writeUse.toList)
  | .constr _ => ([], [])
  | .useA v => ([], [v.base])
  | .dropA _ => ([], [])
  | .noop => ([], [])
  | .storageDead _ => ([], [])
  | .skolemizedEnd _ => ([], [])

/-- The per-action transfer of `Liveness::simulate_block` (processed in
reverse): kill reads and drops of the defs, set reads of the uses, set
the drop bit for `Drop` and the free-region bit for `SkolemizedEnd`. -/
def livenessTransfer (a : ActionKind) (buf : BitBuf) : BitBuf :=
  let du := a.defUse
  let buf := du.1.foldl (fun buf v => bitKill (bitKill buf (.used v)) (.dropBit v)) buf
  let buf := du.2.foldl (fun buf v => bitSet buf (.used v)) buf
  match a with
  | .dropA path => bitSet buf (.dropBit path.base)
  | .skolemizedEnd n => bitSet buf (.freeRegion n)
  | _ => buf

/-- `Liveness::simulate_block`: start from the union of the successors'
entry bits, emit the terminator callback, then walk the actions in
reverse.  Returns the block's entry bits and the callbacks in emission
order. -/
def livenessSimBlock (e : Env) (lv : List BitBuf) (b : Nat) :
    BitBuf × List (Point × Option ActionData × BitBuf) :=
  let buf : BitBuf := (e.graph.successors b).foldl
    (fun buf s => bitUnion buf ((lv.get? s).getD [])) []
  let cb0 := (e.endPoint b, (none : Option ActionData), buf)
  let actions := e.graph.blockActions b
  actions.enum.reverse.foldl
    (fun (acc : BitBuf × List (Point × Option ActionData × BitBuf)) ia =>
      let buf := livenessTransfer ia.2.kind acc.1
      (buf, acc.2 ++ [(⟨b, ia.1⟩, some ia.2, buf)]))
    (buf, [cb0])

/-- One fixed-point pass of `Liveness::compute` over the RPO. -/
def livenessPass (e : Env) (lv : List BitBuf) : Bool × List BitBuf :=
  e.rpo.foldl
    (fun (acc : Bool × List BitBuf) b =>
      let buf := (livenessSimBlock e acc.2 b).1
      let old := (acc.2.get? b).getD []
      let grew := ¬ buf.all fun x => decide (x ∈ old)
      (acc.1 || grew, acc.2.set b (bitUnion old buf)))
    (false, lv)

/-- The `while changed` loop of `Liveness::compute`. -/
def livenessFix (e : Env) : Nat → List BitBuf → List BitBuf
  | 0, lv => lv
  | fuel + 1, lv =>
    let r := livenessPass e lv
    if r.1 then livenessFix e fuel r.2 else r.2

/-- The stable per-block entry bits (`Liveness::new` + `compute`). -/
def livenessMap (e : Env) : List BitBuf :=
  let f := e.graph.func
  let bitCount := 2 * f.decls.length + f.regions.length
  livenessFix e ((bitCount + 1) * (e.graph.numNodes + 1) + 1)
    (List.replicate e.graph.numNodes [])

/-- `Liveness::walk`: all callbacks over the RPO. -/
def livenessWalkList (e : Env) (lv : List BitBuf) :
    List (Point × Option ActionData × BitBuf) :=
  e.rpo.flatMap fun b => (livenessSimBlock e lv b).2

/-- Insert a region name into a name set (`BTreeSet::insert`,
`Liveness::use_region`). -/
def insertName (acc : List RegName) (n : RegName) : List RegName :=
  if n ∈ acc then acc else acc ++ [n]

/-- `Liveness::use_ty`: every region of the type. -/
def useTyAcc (acc : List RegName) (ty : Ty) : Except String (List RegName) := do
  let rs ← ty.walkRegionsE
  rs.foldlM (fun acc r => do pure (insertName acc (← r.assertFreeE))) acc

mutual
/-- `Liveness::drop_ty`: references and unit contribute nothing;
struct parameters contribute according to the `may_dangle` mask — an
unmasked region parameter contributes itself, an unmasked type
parameter contributes all its regions, and a masked (`may_dangle`)
type parameter is recursed into with `drop_ty`. -/
def dropTyAcc (e : Env) (acc : List RegName) : Ty → Except String (List RegName)
  | .ref _ _ _ => pure acc
  | .unit => pure acc
  | .struct sName params => do
      let sd ← e.structDecl sName
      if sd.params.length = params.length then
        dropParamsAcc e acc sd.params params
      else .error "parameter count mismatch"
  | .bound _ => .error "drop_ty: unexpected bound type"

/-- The parameter loop of `Liveness::drop_ty`. -/
def dropParamsAcc (e : Env) (acc : List RegName) :
    List StructParam → TyParams → Except String (List RegName)
  | _, .nil => pure acc
  | [], .cons _ _ => .error "parameter count mismatch"
  | pd :: pds, .cons (.region r) rest => do
      let acc ← if pd.mayDangle then pure acc
                else do pure (insertName acc (← r.assertFreeE))
      dropParamsAcc e acc pds rest
  | pd :: pds, .cons (.ty t) rest => do
      let acc ← if pd.mayDangle then dropTyAcc e acc t else useTyAcc acc t
      dropParamsAcc e acc pds rest
end

/-- `Liveness::regions_set`: map the live bits to live region names, in
the order of the bit vector (used bits of the declarations, then drop
bits, then free regions). -/
def regionsSetE (e : Env) (buf : BitBuf) : Except String (List RegName) := do
  let f := e.graph.func
  let s1 ← f.decls.foldlM
    (fun acc d =>
      if BitKind.used d.var ∈ buf then useTyAcc acc d.ty else pure acc)
    ([] : List RegName)
  let s2 ← f.decls.foldlM
    (fun acc d =>
      if BitKind.dropBit d.var ∈ buf then dropTyAcc e acc d.ty else pure acc)
    s1
  pure (f.regions.foldl
    (fun acc rd => if BitKind.freeRegion rd.name ∈ buf then insertName acc rd.name else acc)
    s2)

/-! ### Region check (`nll/src/regionck.rs`) -/

/-- The state of `RegionCheck`: the inference context plus the
name-to-variable map. -/
structure RCK where
  infer : InferCtx
  regionMap : List (RegName × Nat)

def lookupName (m : List (RegName × Nat)) (n : RegName) : Option Nat :=
  (m.find? fun x => x.1 = n).map fun x => x.2

/-- `RegionCheck::region_variable`: look up or create the variable for
a region name. -/
def RCK.regionVariable (st : RCK) (n : RegName) : RCK × Nat :=
  match lookupName st.regionMap n with
  | some v => (st, v)
  | none =>
      let r := st.infer.addVar n
      ({ infer := r.1, regionMap := st.regionMap ++ [(n, r.2)] }, r.2)

/-- The per-block seeding loop of `RegionCheck::populate_inference`:
live points `(b, 0) .. (b, end)` for one block. -/
def seedBlock (e : Env) (rv : Nat) (cx : InferCtx) (b : Nat) : InferCtx :=
  let ep := e.endPoint b
  let cx := (List.range ep.action).foldl
    (fun cx a => cx.addLivePoint rv ⟨b, a⟩) cx
  cx.addLivePoint rv ep

/-- `RegionCheck::populate_outlives`, linearized with an explicit
stack of pending outlives lists (one machine step per source step,
structural on fuel): a depth-first walk over the declared outlives
clauses, memoized through `visited`, adding the skolemized-end point of
every region reached. -/
def populateOutlivesRun (e : Env) (rv : Nat) :
    Nat → InferCtx → List RegName → List (List RegName) →
    Except String (InferCtx × List RegName)
  | 0, _, _, _ => .error "populate_outlives: fuel exhausted"
  | _ + 1, cx, visited, [] => pure (cx, visited)
  | fuel + 1, cx, visited, [] :: frames =>
      populateOutlivesRun e rv fuel cx visited frames
  | fuel + 1, cx, visited, (region :: pend) :: frames =>
    if region ∈ visited then
      populateOutlivesRun e rv fuel cx visited (pend :: frames)
    else
      match FuncGraph.skolemizedEndIdx e.graph.func region with
      | none => .error "no skolemized end for region"
      | some endIdx =>
        let cx := cx.addLivePoint rv ⟨endIdx, 0⟩
        match e.graph.func.regions.find? fun rd => rd.name = region with
        | none => populateOutlivesRun e rv fuel cx visited (pend :: frames)
        | some rd =>
          populateOutlivesRun e rv fuel cx (visited ++ [region])
            (rd.outlives :: pend :: frames)

/-- Fuel that always covers `populate_outlives` (each declared region
descends at most once, each outlives entry is inspected at most
once). -/
def populateOutlivesFuel (e : Env) : Nat :=
  rootsFuel e.graph.func.regions

/-- The free-region loop body of `RegionCheck::populate_inference`:
seed the region's variable with every point of every RPO block, its own
skolemized-end point and the ends reached through `populate_outlives`,
then cap it. -/
def populateFreeRegion (e : Env) (st : RCK) (rd : RegionDecl) :
    Except String RCK := do
  let p := st.regionVariable rd.name
  let st := p.1
  let rv := p.2
  let cx := e.rpo.foldl (seedBlock e rv) st.infer
  match FuncGraph.skolemizedEndIdx e.graph.func rd.name with
  | none => .error "no skolemized end for region"
  | some endIdx =>
    let cx := cx.addLivePoint rv ⟨endIdx, 0⟩
    let r ← populateOutlivesRun e rv (populateOutlivesFuel e) cx
      [rd.name] [rd.outlives]
    pure { st with infer := r.1.capVar rv }

/-- `RegionCheck::relate_regions`. -/
def relateRegions (st : RCK) (sp : Point) (variance : Variance)
    (a b : RegName) : RCK :=
  let r1 := st.regionVariable a
  let r2 := r1.1.regionVariable b
  let st := r2.1
  let ra := r1.2
  let rb := r2.2
  match variance with
  | .co => { st with infer := st.infer.addOutlives rb ra sp }
  | .contra => { st with infer := st.infer.addOutlives ra rb sp }
  | .inv =>
      { st with infer := (st.infer.addOutlives ra rb sp).addOutlives rb ra sp }

mutual
/-- `RegionCheck::relate_tys`. -/
def relateTys (e : Env) (st : RCK) (sp : Point) (variance : Variance) :
    Ty → Ty → Except String RCK
  | .ref ra ka ta, .ref rb kb tb => do
      if ka = kb then
        let na ← ra.assertFreeE
        let nb ← rb.assertFreeE
        let st := relateRegions st sp variance.invert na nb
        relateTys e st sp (variance.xform ka.variance) ta tb
      else .error "cannot relate references of different kinds"
  | .unit, .unit => pure st
  | .struct sa pa, .struct sb pb => do
      if sa = sb then
        let sd ← e.structDecl sa
        if pa.length = sd.params.length ∧ pb.length = sd.params.length then
          relateParamLists e st sp variance sd.params pa pb
        else .error "wrong number of parameters"
      else .error "cannot compare distinct structs"
  | _, _ => .error "cannot relate these types"

/-- The parameter loop of `relate_tys` for struct types. -/
def relateParamLists (e : Env) (st : RCK) (sp : Point) (variance : Variance) :
    List StructParam → TyParams → TyParams → Except String RCK
  | _, .nil, _ => pure st
  | _, .cons _ _, .nil => pure st
  | [], .cons _ _, .cons _ _ => pure st
  | spd :: spds, .cons p1 ps1, .cons p2 ps2 => do
      let st ← relateOneParam e st sp (variance.xform spd.variance) p1 p2
      relateParamLists e st sp variance spds ps1 ps2

/-- `RegionCheck::relate_parameters`. -/
def relateOneParam (e : Env) (st : RCK) (sp : Point) (variance : Variance) :
    TyParam → TyParam → Except String RCK
  | .ty t1, .ty t2 => relateTys e st sp variance t1 t2
  | .region r1, .region r2 => do
      let n1 ← r1.assertFreeE
      let n2 ← r2.assertFreeE
      pure (relateRegions st sp variance n1 n2)
  | _, _ => .error "cannot relate parameters of different kinds"
end

/-- `RegionCheck::ensure_borrow_source`: the loop over the source
path's supporting prefixes (a bare variable ends the walk). -/
def ensureBorrowGo (e : Env) (sp : Point) (borrowRegion : RegName)
    (st : RCK) : List Path → Except String RCK
  | [] => pure st
  | .var _ :: _ => pure st
  | .ext b f :: rest => do
      match ← e.pathTy b with
      | .ref rr _ _ =>
          if f = starField then do
            let rn ← rr.assertFreeE
            let r1 := st.regionVariable borrowRegion
            let r2 := r1.1.regionVariable rn
            let st := { r2.1 with
              infer := r2.1.infer.addOutlives r2.2 r1.2 sp }
            ensureBorrowGo e sp borrowRegion st rest
          else .error "expected star extension of a reference"
      | _ => ensureBorrowGo e sp borrowRegion st rest

/-- `RegionCheck::ensure_borrow_source`. -/
def ensureBorrowSource (e : Env) (st : RCK) (sp : Point)
    (borrowRegion : RegName) (source : Path) : Except String RCK := do
  let sps ← e.supportingPrefixesE source
  ensureBorrowGo e sp borrowRegion st sps

/-- The liveness part of the walk callback in `populate_inference`:
every live region at the point gets the point as a live point. -/
def populateLivenessAt (e : Env) (st : RCK) (point : Point) (buf : BitBuf) :
    Except String RCK := do
  let regs ← regionsSetE e buf
  pure (regs.foldl
    (fun st rn =>
      let r := st.regionVariable rn
      { r.1 with infer := r.1.infer.addLivePoint r.2 point })
    st)

/-- The action part of the walk callback in `populate_inference`.
Borrows and assignments record their constraints at the successor
point; `Constraint` actions record theirs at the action's own
point. -/
def populateActionConstraints (e : Env) (st : RCK) (point : Point) :
    ActionKind → Except String RCK
  | .borrow dest rn k source => do
      let sp : Point := ⟨point.block, point.action + 1⟩
      let destTy ← e.pathTy dest
      let sourceTy ← e.pathTy source
      let refTy := Ty.ref (.free rn) k sourceTy
      let st ← relateTys e st sp .contra destTy refTy
      ensureBorrowSource e st sp rn source
  | .assign a b => do
      let sp : Point := ⟨point.block, point.action + 1⟩
      let aTy ← e.pathTy a
      let bTy ← e.pathTy b
      relateTys e st sp .co bTy aTy
  | .constr c =>
      match c with
      | .outlives supN subN =>
          let r1 := st.regionVariable supN
          let r2 := r1.1.regionVariable subN
          pure { r2.1 with infer := r2.1.infer.addOutlives r1.2 r2.2 point }
      | _ => .error "unimplemented rich constraint"
  | _ => pure st

/-- `RegionCheck::populate_inference`: seed and cap the free regions,
then walk liveness adding live points and subtyping constraints. -/
def populateInference (e : Env) (lv : List BitBuf) (st : RCK) :
    Except String RCK := do
  let st ← e.graph.func.regions.foldlM (populateFreeRegion e) st
  (livenessWalkList e lv).foldlM
    (fun st cb => do
      let st ← populateLivenessAt e st cb.1 cb.2.2
      match cb.2.1 with
      | none => pure st
      | some a => populateActionConstraints e st cb.1 a.kind)
    st

/-! ### Loans in scope (`nll/src/loans_in_scope.rs`) -/

def natSet (buf : List Nat) (i : Nat) : List Nat :=
  if i ∈ buf then buf else buf ++ [i]

def natUnion (buf other : List Nat) : List Nat :=
  other.foldl natSet buf

/-- `LoansInScope::new`, loan collection: one loan per `Borrow` action
in RPO order, tied to its region's inferred value
(`regionck.region(name)`). -/
def collectLoans (e : Env) (st : RCK) : Except String (List Loan) :=
  e.rpo.foldlM
    (fun acc b =>
      (e.graph.blockActions b).enum.foldlM
        (fun (acc : List Loan) ia =>
          match ia.2.kind with
          | .borrow _ rn k path => do
              let rv ← (lookupName st.regionMap rn).elim
                (Except.error "no region variable ever created with this name")
                Except.ok
              pure (acc ++ [⟨⟨b, ia.1⟩, path, k, st.infer.regionValue rv⟩])
          | _ => pure acc)
        acc)
    []

/-- `loans_by_point` lookup: the loan issued at this point, if any. -/
def loanIndexAt (loans : List Loan) (p : Point) : Option Nat :=
  loans.findIdx? fun l => l.point = p

/-- `Overwrites::overwrites`: the path fully overwritten by the
action. -/
def ActionKind.overwrites : ActionKind → Option Path
  | .borrow p _ _ _ => some p
  | .init a _ => some a
  | .assign a _ => some a
  | .constr _ => none
  | .useA _ => none
  | .dropA _ => none
  | .noop => none
  | .storageDead _ => none
  | .skolemizedEnd _ => none

/-- `LoansInScope::simulate_block`.  NOTE: faithful to the source,
which initializes the buffer from the after-block bits of the block's
graph *successors* (`for succ in self.env.graph.successors(block)`),
although its own comment speaks of predecessors.  Per action: kill
loans whose region does not contain the point, emit the callback, set
the loan issued at this point, kill loans overwritten by the action;
finally kill and emit at the terminator. -/
def loansSimBlock (e : Env) (loans : List Loan) (after : List (List Nat))
    (b : Nat) : List Nat × List (Point × Option ActionData × List Nat) :=
  let buf : List Nat := (e.graph.successors b).foldl
    (fun buf s => natUnion buf ((after.get? s).getD [])) []
  let actions := e.graph.blockActions b
  let acc := actions.enum.foldl
    (fun (acc : List Nat × List (Point × Option ActionData × List Nat)) ia =>
      let point : Point := ⟨b, ia.1⟩
      let buf := acc.1.filter fun li =>
        ((loans.get? li).map fun l => regionContains l.region point).getD false
      let cbs := acc.2 ++ [(point, some ia.2, buf)]
      let buf := match loanIndexAt loans point with
                 | some li => natSet buf li
                 | none => buf
      let buf := match ia.2.kind.overwrites with
                 | some p => buf.filter fun li =>
                     ¬ ((loans.get? li).map fun l =>
                         decide (p ∈ l.path.prefixList)).getD false
                 | none => buf
      (buf, cbs))
    (buf, [])
  let ep := e.endPoint b
  let buf := acc.1.filter fun li =>
    ((loans.get? li).map fun l => regionContains l.region ep).getD false
  (buf, acc.2 ++ [(ep, none, buf)])

/-- One fixed-point pass of `LoansInScope::compute` over the RPO. -/
def loansPass (e : Env) (loans : List Loan) (after : List (List Nat)) :
    Bool × List (List Nat) :=
  e.rpo.foldl
    (fun (acc : Bool × List (List Nat)) b =>
      let buf := (loansSimBlock e loans acc.2 b).1
      let old := (acc.2.get? b).getD []
      let grew := ¬ buf.all fun x => decide (x ∈ old)
      (acc.1 || grew, acc.2.set b (natUnion old buf)))
    (false, after)

/-- The `while changed` loop of `LoansInScope::compute`. -/
def loansFix (e : Env) (loans : List Loan) :
    Nat → List (List Nat) → List (List Nat)
  | 0, after => after
  | fuel + 1, after =>
    let r := loansPass e loans after
    if r.1 then loansFix e loans fuel r.2 else r.2

/-- The stable after-block loan sets. -/
def loansFixMap (e : Env) (loans : List Loan) : List (List Nat) :=
  loansFix e loans ((loans.length + 1) * (e.graph.numNodes + 1) + 1)
    (List.replicate e.graph.numNodes [])

/-- `LoansInScope::walk`: all callbacks over the RPO, with the
in-scope loan-index set at each point. -/
def loansWalkList (e : Env) (loans : List Loan) (after : List (List Nat)) :
    List (Point × Option ActionData × List Nat) :=
  e.rpo.flatMap fun b => (loansSimBlock e loans after b).2

/-! ### The analysis pipeline and assertions -/

/-- Everything the assertions and the borrow check consume. -/
structure Pipeline where
  env : Env
  lv : List BitBuf
  rck : RCK
  inferErrors : List InfError
  loans : List Loan
  loansAfter : List (List Nat)

/-- `process_input` up to the loans-in-scope computation: build the
graph and environment, compute liveness, populate and solve inference,
collect loans and run their dataflow. -/
def runPipeline (f : Func) : Except String Pipeline := do
  let g ← (funcGraphNew f).elim (Except.error "graph construction failed")
    Except.ok
  let e := mkEnv g
  let lv := livenessMap e
  let st ← populateInference e lv ⟨InferCtx.empty, []⟩
  let r ← solveE e st.infer
  let st := { st with infer := r.2 }
  let loans ← collectLoans e st
  let after := loansFixMap e loans
  pure ⟨e, lv, st, r.1, loans, after⟩

/-- Resolve a user-written point literal (`RegionCheck::to_point`). -/
def toPointE (e : Env) (rp : RPoint) : Except String Point :=
  match rp.block with
  | .code b => (FuncGraph.blockIdx e.graph.func b).elim
      (Except.error "no such block") fun i => pure ⟨i, rp.action⟩
  | .skolemizedEnd r => (FuncGraph.skolemizedEndIdx e.graph.func r).elim
      (Except.error "no such region") fun i => pure ⟨i, rp.action⟩

/-- Equality of two point sets. -/
def setEqPoints (a b : List Point) : Bool :=
  decide (∀ p ∈ a, p ∈ b) && decide (∀ p ∈ b, p ∈ a)

/-- One assertion's outcome (`RegionCheck::check_assertions`): `true`
iff the assertion passes. -/
def assertionHolds (p : Pipeline) : Assertion → Except String Bool
  | .eqA rn lit => do
      let rv ← (lookupName p.rck.regionMap rn).elim
        (Except.error "no region variable ever created with this name")
        Except.ok
      let lits ← lit.mapM (toPointE p.env)
      pure (setEqPoints (p.rck.infer.regionValue rv) lits)
  | .inA rn rp => do
      let rv ← (lookupName p.rck.regionMap rn).elim
        (Except.error "no region variable ever created with this name")
        Except.ok
      let pt ← toPointE p.env rp
      pure (regionContains (p.rck.infer.regionValue rv) pt)
  | .notInA rn rp => do
      let rv ← (lookupName p.rck.regionMap rn).elim
        (Except.error "no region variable ever created with this name")
        Except.ok
      let pt ← toPointE p.env rp
      pure (! regionContains (p.rck.infer.regionValue rv) pt)
  | .liveA v b => do
      let i ← (FuncGraph.blockIdx p.env.graph.func b).elim
        (Except.error "no such block") Except.ok
      pure (decide (BitKind.used v ∈ (p.lv.get? i).getD []))
  | .notLiveA v b => do
      let i ← (FuncGraph.blockIdx p.env.graph.func b).elim
        (Except.error "no such block") Except.ok
      pure (! decide (BitKind.used v ∈ (p.lv.get? i).getD []))
  | .regionLiveA rn b => do
      let i ← (FuncGraph.blockIdx p.env.graph.func b).elim
        (Except.error "no such block") Except.ok
      let regs ← regionsSetE p.env ((p.lv.get? i).getD [])
      pure (decide (rn ∈ regs))
  | .regionNotLiveA rn b => do
      let i ← (FuncGraph.blockIdx p.env.graph.func b).elim
        (Except.error "no such block") Except.ok
      let regs ← regionsSetE p.env ((p.lv.get? i).getD [])
      pure (! decide (rn ∈ regs))

/-- The outcomes of all assertions of a program. -/
def assertionOutcomes (f : Func) : Except String (List Bool) := do
  let p ← runPipeline f
  f.assertions.mapM (assertionHolds p)

/-- The inferred value of a named region after the pipeline. -/
def pipelineRegionValue (f : Func) (rn : RegName) :
    Except String (List Point) := do
  let p ← runPipeline f
  let rv ← (lookupName p.rck.regionMap rn).elim
    (Except.error "no region variable ever created with this name") Except.ok
  pure (p.rck.infer.regionValue rv)

/-- The loan indices passed to the walk callback at a given point. -/
def pipelineLoansAt (f : Func) (pt : Point) :
    Except String (List (List Nat)) := do
  let p ← runPipeline f
  pure ((loansWalkList p.env p.loans p.loansAfter).filterMap
    fun cb => if cb.1 = pt then some cb.2.2 else none)

/-! ### Claim-side notions and concrete fixtures -/

/-- `q` is a prefix of `p` (the spec's notion: `p` equals `q` or
extends it through fields). -/
inductive IsPathPre : Path → Path → Prop where
  | refl (p : Path) : IsPathPre p p
  | ext {q b : Path} (f : FieldNm) : IsPathPre q b → IsPathPre q (.ext b f)

/-- `p` is a supporting prefix of `q` (the spec's notion, via the
environment's supporting-prefix computation). -/
def IsSupporting (e : Env) (p q : Path) : Prop :=
  ∃ sps, e.supportingPrefixesE q = .ok sps ∧ p ∈ sps

/-- Build the graph, falling back to a trivial one (never exercised by
the fixtures below, whose construction succeeds). -/
def graphOrTrivial (f : Func) : FuncGraph :=
  (funcGraphNew f).getD ⟨f, 0, []⟩

def envOf (f : Func) : Env := mkEnv (graphOrTrivial f)

/-- Fixture: `v: &'a mut ()`, `x: ()`, one empty START block. -/
def funcBW : Func :=
  { decls := [⟨"x", .unit⟩, ⟨"v", .ref (.free "a") .mut .unit⟩]
    structs := []
    regions := []
    blocks := [⟨"START", [], []⟩]
    assertions := [] }

def envBW : Env := envOf funcBW

/-- A mutable loan of `*v` issued at `(START, 0)` (region value
irrelevant to the access checks). -/
def loanStarV : Loan := ⟨⟨0, 0⟩, .ext (.var "v") starField, .mut, []⟩

/-- A mutable loan of `x` issued at `(START, 0)`. -/
def loanX : Loan := ⟨⟨0, 0⟩, .var "x", .mut, []⟩

/-- Fixture for the inference claims: one block with a single action,
no declared regions. -/
def funcIW : Func :=
  { decls := [], structs := [], regions := []
    blocks := [⟨"START", [⟨.noop, false, none⟩], []⟩]
    assertions := [] }

def envIW : Env := envOf funcIW

/-- A capped variable seeded below its constraint's reach: variable 0
(`s`) holds both points of the block, capped variable 1 (`t`) only the
first. -/
def ctxIW : InferCtx :=
  ⟨[⟨"s", [⟨0, 0⟩, ⟨0, 1⟩], false⟩, ⟨"t", [⟨0, 0⟩], true⟩], [], []⟩

/-- A capped variable whose value misses `(0, 2)`. -/
def ctxC5 : InferCtx := ⟨[⟨"a", [⟨0, 0⟩], true⟩], [], []⟩

/-- An empty region-check state. -/
def rck0 : RCK := ⟨InferCtx.empty, []⟩

mutual
/-- Spec-side notion: the free region `r` occurs in the type (this is
what use-liveness contributes). -/
inductive UseRegion : Ty → RegName → Prop where
  | refOwn {n : RegName} {k : BorrowKind} {t : Ty} :
      UseRegion (.ref (.free n) k t) n
  | refInner {rn : RRegion} {k : BorrowKind} {t : Ty} {r : RegName} :
      UseRegion t r → UseRegion (.ref rn k t) r
  | inStruct {n : StructNm} {ps : TyParams} {r : RegName} :
      UseParamsRegion ps r → UseRegion (.struct n ps) r

/-- `UseRegion` through a parameter vector. -/
inductive UseParamsRegion : TyParams → RegName → Prop where
  | regionHead {r : RegName} {rest : TyParams} :
      UseParamsRegion (.cons (.region (.free r)) rest) r
  | tyHead {t : Ty} {rest : TyParams} {r : RegName} :
      UseRegion t r → UseParamsRegion (.cons (.ty t) rest) r
  | tail {p : TyParam} {rest : TyParams} {r : RegName} :
      UseParamsRegion rest r → UseParamsRegion (.cons p rest) r
end

mutual
/-- Spec-side notion of drop-liveness (the amended C6 mask): a region
is drop-live for a struct type when some parameter position
contributes it — a region parameter not marked `may_dangle`
contributes itself, a type parameter not marked `may_dangle`
contributes every region of its type, and a `may_dangle` type
parameter contributes its own recursive drop-live regions.  References
and unit contribute nothing. -/
inductive DropRegion (e : Env) : Ty → RegName → Prop where
  | ofParams {sName : StructNm} {ps : TyParams} {sd : StructDecl}
      {r : RegName} :
      e.structDecl sName = .ok sd →
      sd.params.length = ps.length →
      DropParamsRegion e sd.params ps r →
      DropRegion e (.struct sName ps) r

/-- `DropRegion` through the parameter vector, masked per
declaration. -/
inductive DropParamsRegion (e : Env) :
    List StructParam → TyParams → RegName → Prop where
  | regionHead {pd : StructParam} {pds : List StructParam} {r : RegName}
      {rest : TyParams} :
      pd.mayDangle = false →
      DropParamsRegion e (pd :: pds) (.cons (.region (.free r)) rest) r
  | tyHeadUse {pd : StructParam} {pds : List StructParam} {t : Ty}
      {rest : TyParams} {r : RegName} :
      pd.mayDangle = false → UseRegion t r →
      DropParamsRegion e (pd :: pds) (.cons (.ty t) rest) r
  | tyHeadDrop {pd : StructParam} {pds : List StructParam} {t : Ty}
      {rest : TyParams} {r : RegName} :
      pd.mayDangle = true → DropRegion e t r →
      DropParamsRegion e (pd :: pds) (.cons (.ty t) rest) r
  | tail {pd : StructParam} {pds : List StructParam} {p : TyParam}
      {rest : TyParams} {r : RegName} :
      DropParamsRegion e pds rest r →
      DropParamsRegion e (pd :: pds) (.cons p rest) r
end

/-- Fixture for C6: `struct A<#[may_dangle] T>` and `struct B<'x>`
(region parameter not `may_dangle`). -/
def funcC6 : Func :=
  { decls := []
    structs :=
      [⟨"A", [⟨.typeK, .co, true⟩], []⟩,
       ⟨"B", [⟨.regionK, .co, false⟩], []⟩]
    regions := [⟨"r", []⟩]
    blocks := [⟨"START", [], []⟩]
    assertions := [] }

def envC6 : Env := envOf funcC6

/-- `B<'r>` as a type. -/
def tyB : Ty := .struct "B" (.cons (.region (.free "r")) .nil)

/-- `A<B<'r>>`: the region `'r` sits under the `may_dangle` type
parameter of `A`. -/
def tyAB : Ty := .struct "A" (.cons (.ty tyB) .nil)

/-- Fixture for C1: `x: ()`, `y: &'a ()`, a declared free region `'a`;
START borrows `x` into `y` and jumps to B, whose single action is a
`Noop` and which has no declared successors. -/
def funcC1 : Func :=
  { decls := [⟨"x", .unit⟩, ⟨"y", .ref (.free "a") .shared .unit⟩]
    structs := []
    regions := [⟨"a", []⟩]
    blocks :=
      [⟨"START", [⟨.borrow (.var "y") "a" .shared (.var "x"), false, none⟩],
        ["B"]⟩,
       ⟨"B", [⟨.noop, false, none⟩], []⟩]
    assertions := [] }

/-- Fixture for C9: a declared free region `'a`, an empty START block,
and the assertion `'a not_in (START/1)`. -/
def funcC9a : Func :=
  { decls := [], structs := [], regions := [⟨"a", []⟩]
    blocks := [⟨"START", [], []⟩]
    assertions := [.notInA "a" ⟨.code "START", 1⟩] }

/-- `funcC9a` with a single `Noop` inserted into START. -/
def funcC9b : Func :=
  { decls := [], structs := [], regions := [⟨"a", []⟩]
    blocks := [⟨"START", [⟨.noop, false, none⟩], []⟩]
    assertions := [.notInA "a" ⟨.code "START", 1⟩] }

/-- Fixture for C4: a declared free region `'a`, START with no
successors, and a declared block `B2` unreachable from START. -/
def funcC4 : Func :=
  { decls := [], structs := [], regions := [⟨"a", []⟩]
    blocks := [⟨"START", [], []⟩, ⟨"B2", [], ["B2"]⟩]
    assertions := [] }

/-- The region value and capped flag of `rd.name` right after the
free-region seeding loop of `populate_inference` (before the liveness
walk and before `solve`). -/
def seededRegionValue (f : Func) (rn : RegName) :
    Except String (List Point × Bool) := do
  let g ← (funcGraphNew f).elim (Except.error "graph construction failed")
    Except.ok
  let e := mkEnv g
  let st ← f.regions.foldlM (populateFreeRegion e) (⟨InferCtx.empty, []⟩ : RCK)
  let rv ← (lookupName st.regionMap rn).elim
    (Except.error "no region variable ever created with this name") Except.ok
  pure (st.infer.regionValue rv,
    ((st.infer.defs.get? rv).map VarDef.capped).getD false)

/-- The edge relation of the declared outlives graph, as read by
`populate_outlives` and `RegionRoots`: an edge from `x` to `y` for each
declared clause `x: y` (region `x` outlives `y`). -/
def outlivesEdge (f : Func) (x y : RegName) : Prop :=
  ∃ rd ∈ f.regions, rd.name = x ∧ y ∈ rd.outlives

/-- Fixture for C7, from the repository's own test
`root_cycle_reachable_from_outside`: `'a` and `'b` form an outlives
cycle that is reachable from `'c`. -/
def regionsC7 : List RegionDecl :=
  [⟨"a", ["b", "c"]⟩, ⟨"b", ["a"]⟩, ⟨"c", []⟩]

/-- Adjacency along a list in the roots graph: each element's
successor list is exactly the singleton of its predecessor in the
list. -/
def succsConsec (succs : RegName → List RegName) : List RegName → Prop
  | [] => True
  | [_] => True
  | u :: v :: rest => succs v = [u] ∧ succsConsec succs (v :: rest)

/-- A singly-linked successor chain through `ws` ending with an edge
to `c`. -/
def succsChain (succs : RegName → List RegName) : List RegName → RegName → Prop
  | [], _ => True
  | [w], c => succs w = [c]
  | w :: w2 :: ws, c => succs w = [w2] ∧ succsChain succs (w2 :: ws) c

/-! ## Theorems -/

/-! ### Reconciliation lemmas (claim C8) -/

theorem eraseKey_cons_self {p a : Point} {b : String}
    {tl : List (Point × String)} (h : a = p) :
    eraseKey ((a, b) :: tl) p = eraseKey tl p := by
  simp [eraseKey, List.filter_cons, h]

theorem eraseKey_cons_ne {p a : Point} {b : String}
    {tl : List (Point × String)} (h : ¬ a = p) :
    eraseKey ((a, b) :: tl) p = (a, b) :: eraseKey tl p := by
  simp [eraseKey, List.filter_cons, h]

theorem findMsg_eraseKey_self (exps : List (Point × String)) (p : Point) :
    findMsg (eraseKey exps p) p = none := by
  induction exps with
  | nil => rfl
  | cons hd tl ih =>
    obtain ⟨a, b⟩ := hd
    by_cases h : a = p
    · rw [eraseKey_cons_self h]; exact ih
    · rw [eraseKey_cons_ne h]
      simp only [findMsg, if_neg h]
      exact ih

theorem findMsg_eraseKey_ne (exps : List (Point × String)) (p q : Point)
    (h : q ≠ p) : findMsg (eraseKey exps p) q = findMsg exps q := by
  induction exps with
  | nil => rfl
  | cons hd tl ih =>
    obtain ⟨a, b⟩ := hd
    by_cases h1 : a = p
    · have h2 : ¬ a = q := by rw [h1]; exact fun hq => h hq.symm
      rw [eraseKey_cons_self h1]
      simp only [findMsg, if_neg h2]
      exact ih
    · rw [eraseKey_cons_ne h1]
      by_cases h2 : a = q
      · simp only [findMsg, if_pos h2]
      · simp only [findMsg, if_neg h2]
        exact ih

theorem mem_eraseKey {exps : List (Point × String)} {p : Point}
    {pm : Point × String} : pm ∈ eraseKey exps p ↔ pm ∈ exps ∧ pm.1 ≠ p := by
  simp [eraseKey, List.mem_filter]

/-- Characterization of the reconciliation loop: it returns `Ok` iff
the processed errors sit at pairwise distinct points, each one is
matched by the expectation at its point, and every expectation's point
carries an error. -/
theorem reconcileGo_ok_iff (errs : List RepError) (exps : List (Point × String)) :
    reconcileGo errs exps = .ok () ↔
      ((errs.map (fun e => e.point)).Nodup ∧
       (∀ e ∈ errs, ∃ m, findMsg exps e.point = some m ∧
          strContains e.message m = true) ∧
       (∀ pm ∈ exps, ∃ e ∈ errs, e.point = pm.1)) := by
  induction errs generalizing exps with
  | nil =>
    cases exps with
    | nil => simp [reconcileGo]
    | cons hd tl =>
      obtain ⟨p, s⟩ := hd
      constructor
      · intro h
        exact Except.noConfusion h
      · rintro ⟨-, -, hcov⟩
        obtain ⟨e, he, -⟩ := hcov (p, s) (List.mem_cons_self _ _)
        cases he
  | cons e rest ih =>
    constructor
    · intro h
      rcases hm : findMsg exps e.point with _ | m
      · simp only [reconcileGo, hm] at h
        exact Except.noConfusion h
      · simp only [reconcileGo, hm] at h
        by_cases hc : strContains e.message m = true
        · rw [if_pos hc] at h
          obtain ⟨hnd, hall, hcov⟩ := (ih _).mp h
          refine ⟨?_, ?_, ?_⟩
          · rw [List.map_cons]
            refine List.nodup_cons.mpr ⟨?_, hnd⟩
            intro hmem
            simp only [List.mem_map] at hmem
            obtain ⟨e2, he2, hpt⟩ := hmem
            obtain ⟨m2, hm2, -⟩ := hall e2 he2
            rw [hpt, findMsg_eraseKey_self] at hm2
            exact Option.noConfusion hm2
          · intro e2 he2
            rcases List.mem_cons.mp he2 with he2 | he2
            · subst he2
              exact ⟨m, hm, hc⟩
            · obtain ⟨m2, hm2, hc2⟩ := hall e2 he2
              by_cases hpt : e2.point = e.point
              · rw [hpt, findMsg_eraseKey_self] at hm2
                exact Option.noConfusion hm2
              · refine ⟨m2, ?_, hc2⟩
                rw [findMsg_eraseKey_ne exps e.point e2.point hpt] at hm2
                exact hm2
          · intro pm hpm
            by_cases hpt : pm.1 = e.point
            · exact ⟨e, List.mem_cons_self _ _, hpt.symm⟩
            · obtain ⟨e2, he2, hpe⟩ := hcov pm (mem_eraseKey.mpr ⟨hpm, hpt⟩)
              exact ⟨e2, List.mem_cons_of_mem _ he2, hpe⟩
        · rw [if_neg hc] at h
          exact Except.noConfusion h
    · rintro ⟨hnd, hall, hcov⟩
      obtain ⟨m, hm, hc⟩ := hall e (List.mem_cons_self _ _)
      rw [List.map_cons] at hnd
      have hnd2 := List.nodup_cons.mp hnd
      simp only [reconcileGo, hm, if_pos hc]
      refine (ih _).mpr ⟨hnd2.2, ?_, ?_⟩
      · intro e2 he2
        obtain ⟨m2, hm2, hc2⟩ := hall e2 (List.mem_cons_of_mem _ he2)
        have hpt : e2.point ≠ e.point := by
          intro hpt
          exact hnd2.1 (hpt ▸ List.mem_map_of_mem (fun x => x.point) he2)
        refine ⟨m2, ?_, hc2⟩
        rw [findMsg_eraseKey_ne exps e.point e2.point hpt]
        exact hm2
      · intro pm hpm
        obtain ⟨hpm2, hpt⟩ := mem_eraseKey.mp hpm
        obtain ⟨e2, he2, hpe⟩ := hcov pm hpm2
        rcases List.mem_cons.mp he2 with he2 | he2
        · subst he2
          exact absurd hpe.symm hpt
        · exact ⟨e2, he2, hpe⟩

/-- The same characterization for `reconcile_errors` itself (errors are
popped from the back, which does not affect success). -/
theorem reconcileErrors_ok_iff (reported : List RepError)
    (exps : List (Point × String)) :
    reconcileErrors reported exps = .ok () ↔
      ((reported.map (fun e => e.point)).Nodup ∧
       (∀ e ∈ reported, ∃ m, findMsg exps e.point = some m ∧
          strContains e.message m = true) ∧
       (∀ pm ∈ exps, ∃ e ∈ reported, e.point = pm.1)) := by
  rw [reconcileErrors, reconcileGo_ok_iff]
  constructor
  · rintro ⟨hnd, hall, hcov⟩
    refine ⟨?_, ?_, ?_⟩
    · rw [List.map_reverse] at hnd
      exact List.nodup_reverse.mp hnd
    · intro e he
      exact hall e (List.mem_reverse.mpr he)
    · intro pm hpm
      obtain ⟨e2, he2, hpe⟩ := hcov pm hpm
      exact ⟨e2, List.mem_reverse.mp he2, hpe⟩
  · rintro ⟨hnd, hall, hcov⟩
    refine ⟨?_, ?_, ?_⟩
    · rw [List.map_reverse]
      exact List.nodup_reverse.mpr hnd
    · intro e he
      exact hall e (List.mem_reverse.mp he)
    · intro pm hpm
      obtain ⟨e2, he2, hpe⟩ := hcov pm hpm
      exact ⟨e2, List.mem_reverse.mpr he2, hpe⟩


/-- Claim C8, counterexample: two observed errors at the same point,
both containing the registered expected message `"x"`; every observed
error has a matching expectation at its point whose message is a
substring of the observed one, and the expectation is matched by an
observed error, yet reconciliation fails — the first match consumes
the unique expectation at the point, leaving the second observed error
unmatched (and the run returns that single diagnostic, not one per
surviving error). -/
theorem c8_reconcile_cex :
    reconcileErrors [⟨⟨0, 0⟩, "xy"⟩, ⟨⟨0, 0⟩, "xy"⟩] [(⟨0, 0⟩, "x")] =
      .error ⟨⟨0, 0⟩, "xy"⟩ ∧
    strContains "xy" "x" = true ∧
    findMsg [(⟨0, 0⟩, "x")] ⟨0, 0⟩ = some "x" :=
  ⟨rfl, rfl, rfl⟩

/-- Claim C8 (amended): error reconciliation returns `Ok` (a
successful exit) iff the observed errors lie at pairwise distinct
points, the expectation registered at each observed error's point has a
message that is a substring of the observed message, and every
registered expectation's point carries some observed error; any other
configuration fails the run, which returns the first surviving error
as its single diagnostic. -/
theorem c8_reconcile_amended (reported : List RepError)
    (exps : List (Point × String)) :
    reconcileErrors reported exps = .ok () ↔
      ((reported.map (fun e => e.point)).Nodup ∧
       (∀ e ∈ reported, ∃ m, findMsg exps e.point = some m ∧
          strContains e.message m = true) ∧
       (∀ pm ∈ exps, ∃ e ∈ reported, e.point = pm.1)) :=
  reconcileErrors_ok_iff reported exps

/-! ### Path-prefix and loan-selection lemmas (claims C2, C3) -/

theorem isPathPre_var_inv {q : Path} {v : VarName}
    (h : IsPathPre q (.var v)) : q = .var v := by
  cases h
  rfl

theorem isPathPre_ext_inv {q b : Path} {f : FieldNm}
    (h : IsPathPre q (.ext b f)) : q = .ext b f ∨ IsPathPre q b := by
  cases h with
  | refl => exact Or.inl rfl
  | ext _ h2 => exact Or.inr h2

/-- Membership in `prefixes()` is exactly the prefix relation. -/
theorem mem_prefixList_iff (q p : Path) :
    q ∈ p.prefixList ↔ IsPathPre q p := by
  induction p with
  | var v =>
    simp only [Path.prefixList, List.mem_singleton]
    constructor
    · rintro rfl; exact .refl _
    · exact isPathPre_var_inv
  | ext b f ih =>
    simp only [Path.prefixList, List.mem_cons]
    constructor
    · rintro (rfl | h)
      · exact .refl _
      · exact .ext f (ih.mp h)
    · intro h
      rcases isPathPre_ext_inv h with h | h
      · exact Or.inl h
      · exact Or.inr (ih.mpr h)

/-- If the per-loan predicate is defined on every loan, the selection
filter succeeds and picks exactly the loans on which the predicate
returns `true`. -/
theorem filterLoansE_ok {f : Loan → Except String Bool} {loans : List Loan}
    (h : ∀ l ∈ loans, ∃ b, f l = .ok b) :
    ∃ picked, filterLoansE f loans = .ok picked ∧
      ∀ l, l ∈ picked ↔ (l ∈ loans ∧ f l = .ok true) := by
  induction loans with
  | nil => exact ⟨[], rfl, by simp⟩
  | cons hd tl ih =>
    obtain ⟨b, hb⟩ := h hd (List.mem_cons_self _ _)
    obtain ⟨picked, hp, hmem⟩ := ih fun l hl => h l (List.mem_cons_of_mem _ hl)
    refine ⟨if b then hd :: picked else picked, ?_, ?_⟩
    · simp only [filterLoansE, hb, hp]
    · intro l
      cases b
      · rw [if_neg (by simp)]
        rw [hmem l]
        constructor
        · rintro ⟨hl, ht⟩
          exact ⟨List.mem_cons_of_mem _ hl, ht⟩
        · rintro ⟨hl, ht⟩
          rcases List.mem_cons.mp hl with rfl | hl
          · rw [hb] at ht
            cases ht
          · exact ⟨hl, ht⟩
      · rw [if_pos rfl]
        constructor
        · intro hl
          rcases List.mem_cons.mp hl with rfl | hl
          · exact ⟨List.mem_cons_self _ _, hb⟩
          · obtain ⟨h1, h2⟩ := (hmem l).mp hl
            exact ⟨List.mem_cons_of_mem _ h1, h2⟩
        · rintro ⟨hl, ht⟩
          rcases List.mem_cons.mp hl with rfl | hl
          · exact List.mem_cons_self _ _
          · exact List.mem_cons_of_mem _ ((hmem l).mpr ⟨hl, ht⟩)

/-- `loanIntersectsE` evaluated under a defined supporting-prefix
computation. -/
theorem loanIntersectsE_eq {e : Env} {loan : Loan} (path : Path)
    {sps : List Path} (hs : e.supportingPrefixesE loan.path = .ok sps) :
    loanIntersectsE e path loan =
      .ok (decide (loan.path ∈ path.prefixList) || decide (path ∈ sps)) := by
  simp only [loanIntersectsE, hs]
  rfl

/-- The loan-intersection predicate holds exactly when the loan path is
a prefix of the access path or the access path is a supporting prefix
of the loan path. -/
theorem loanIntersectsE_true_iff {e : Env} {loan : Loan} (path : Path)
    {sps : List Path} (hs : e.supportingPrefixesE loan.path = .ok sps) :
    loanIntersectsE e path loan = .ok true ↔
      (IsPathPre loan.path path ∨ IsSupporting e path loan.path) := by
  rw [loanIntersectsE_eq path hs]
  constructor
  · intro h
    have h2 : (decide (loan.path ∈ path.prefixList) ||
        decide (path ∈ sps)) = true := by
      injection h
    rcases Bool.or_eq_true_iff.mp h2 with h3 | h3
    · exact Or.inl ((mem_prefixList_iff _ _).mp (of_decide_eq_true h3))
    · exact Or.inr ⟨sps, hs, of_decide_eq_true h3⟩
  · intro h
    have h2 : (decide (loan.path ∈ path.prefixList) ||
        decide (path ∈ sps)) = true := by
      rcases h with h | ⟨sps2, hs2, hmem⟩
      · exact Bool.or_eq_true_iff.mpr (Or.inl (decide_eq_true
          ((mem_prefixList_iff _ _).mpr h)))
      · rw [hs] at hs2
        injection hs2 with hs2
        subst hs2
        exact Bool.or_eq_true_iff.mpr (Or.inr (decide_eq_true hmem))
    rw [h2]

/-- The read loop reports no error exactly when no selected loan is
mutable. -/
theorem checkBorrowsLoop_read_none (point : Point) (path : Path)
    (picked : List Loan) :
    checkBorrowsLoop .read point path picked = none ↔
      ∀ l ∈ picked, l.kind ≠ .mut := by
  induction picked with
  | nil => simp [checkBorrowsLoop]
  | cons hd tl ih =>
    rcases hk : hd.kind with _ | _
    · simp only [checkBorrowsLoop, hk]
      constructor
      · intro h; cases h
      · intro h
        exact absurd hk (h hd (List.mem_cons_self _ _))
    · simp only [checkBorrowsLoop, hk]
      rw [ih]
      constructor
      · intro h l hl
        rcases List.mem_cons.mp hl with rfl | hl
        · rw [hk]; intro h2; cases h2
        · exact h l hl
      · intro h l hl
        exact h l (List.mem_cons_of_mem _ hl)

/-- The drop loop reports no error exactly when every selected loan may
dangle (given the walks are defined). -/
theorem checkDropLoop_none {e : Env} (point : Point) (path : Path)
    {picked : List Loan}
    (h : ∀ l ∈ picked, ∃ b, mayDangleWithRespectTo e l.path path = .ok b) :
    checkDropLoop e point path picked = .ok none ↔
      ∀ l ∈ picked, mayDangleWithRespectTo e l.path path = .ok true := by
  induction picked with
  | nil =>
    exact ⟨fun _ l hl => absurd hl (List.not_mem_nil _), fun _ => rfl⟩
  | cons hd tl ih =>
    obtain ⟨b, hb⟩ := h hd (List.mem_cons_self _ _)
    have ih2 := ih fun l hl => h l (List.mem_cons_of_mem _ hl)
    cases b
    · simp only [checkDropLoop, hb]
      constructor
      · intro h2
        cases h2
      · intro h2
        have h3 := h2 hd (List.mem_cons_self _ _)
        rw [hb] at h3
        cases h3
    · simp only [checkDropLoop, hb]
      rw [ih2]
      constructor
      · intro h2 l hl
        rcases List.mem_cons.mp hl with rfl | hl
        · exact hb
        · exact h2 l hl
      · intro h2 l hl
        exact h2 l (List.mem_cons_of_mem _ hl)

/-- Claim C2: the deep-read check performed for `Use(p)` (and for the
sources of `Init`, `Assign` and shared `Borrow`) succeeds at a point
iff no loan of kind `mut` in scope there intersects `p`, where a loan
intersects `p` exactly when the loan's path is a prefix of `p` or `p`
is a supporting prefix of the loan's path.  (Hypothesis: the
supporting-prefix walk of each loan path is defined, i.e. the program
is well-typed where the source would panic.) -/
theorem c2_deep_read_check (e : Env) (point : Point) (loans : List Loan)
    (path : Path)
    (hdef : ∀ loan ∈ loans, ∃ sps, e.supportingPrefixesE loan.path = .ok sps) :
    (checkRead e point loans path = .ok none ↔
      ∀ loan ∈ loans, loan.kind = .mut →
        ¬ (IsPathPre loan.path path ∨ IsSupporting e path loan.path)) ∧
    checkAction e point loans (.useA path) = checkRead e point loans path := by
  refine ⟨?_, rfl⟩
  have hdef2 : ∀ l ∈ loans, ∃ b, loanIntersectsE e path l = .ok b := by
    intro l hl
    obtain ⟨sps, hs⟩ := hdef l hl
    exact ⟨_, loanIntersectsE_eq path hs⟩
  obtain ⟨picked, hp, hmem⟩ := filterLoansE_ok hdef2
  have hcr : checkRead e point loans path =
      .ok (checkBorrowsLoop .read point path picked) := by
    simp only [checkRead, checkBorrows, hp]
  rw [hcr]
  have h1 : (Except.ok (checkBorrowsLoop .read point path picked) =
      (Except.ok none : Except String (Option BorrowErr))) ↔
      checkBorrowsLoop .read point path picked = none := by
    constructor
    · intro h
      injection h
    · intro h
      rw [h]
  rw [h1, checkBorrowsLoop_read_none]
  constructor
  · intro h loan hl hmut hint
    obtain ⟨sps, hs⟩ := hdef loan hl
    have htrue : loanIntersectsE e path loan = .ok true :=
      (loanIntersectsE_true_iff path hs).mpr hint
    exact absurd hmut (h loan ((hmem loan).mpr ⟨hl, htrue⟩))
  · intro h loan hl
    obtain ⟨hl2, htrue⟩ := (hmem loan).mp hl
    obtain ⟨sps, hs⟩ := hdef loan hl2
    intro hmut
    exact h loan hl2 hmut ((loanIntersectsE_true_iff path hs).mp htrue)

/-- Witness for C2 at a concrete input: one mutable loan of `x`, read
of `x`. -/
theorem c2_deep_read_check_witness :
    (checkRead envBW ⟨0, 0⟩ [loanX] (.var "x") = .ok none ↔
      ∀ loan ∈ [loanX], loan.kind = .mut →
        ¬ (IsPathPre loan.path (.var "x") ∨
           IsSupporting envBW (.var "x") loan.path)) ∧
    checkAction envBW ⟨0, 0⟩ [loanX] (.useA (.var "x")) =
      checkRead envBW ⟨0, 0⟩ [loanX] (.var "x") :=
  c2_deep_read_check envBW ⟨0, 0⟩ [loanX] (.var "x")
    (by
      intro loan hl
      rw [List.mem_singleton] at hl
      subst hl
      exact ⟨[.var "x"], rfl⟩)

/-- Claim C3, counterexample to the subclause "a loan path reached
through a reference whose region is a free (program-named) region
never may-dangles, so such a loan always makes the drop fail": with
`v: &'a mut ()` and a loan of `*v` in scope, `Drop(v)` succeeds even
though the loan intersects `v` and is reached through the reference
`v` whose region `'a` is free — the may-dangle walk only consults
regions of struct fields, and here reaches the bare variable `v`
directly. -/
theorem c3_drop_check_cex :
    checkDrop envBW ⟨0, 1⟩ [loanStarV] (.var "v") = .ok none ∧
    loanIntersectsE envBW (.var "v") loanStarV = .ok true ∧
    envBW.pathTy (.var "v") = .ok (.ref (.free "a") .mut .unit) ∧
    loanStarV.path = .ext (.var "v") starField :=
  ⟨rfl, rfl, rfl, rfl⟩

/-- Claim C3 (amended): for every `Drop(p)` action at point `P`, the
check fails iff some loan in scope at `P` intersects `p` and the
loan's path does not may-dangle with respect to `p` — equivalently, it
succeeds iff every intersecting loan's path may-dangles.  (The
original subclause on free regions is dropped: the may-dangle walk
consults region annotations only on struct-field reference types, see
`c3_drop_check_cex`.)  Hypotheses: the supporting-prefix and
may-dangle walks are defined on the loans, i.e. the program is
well-typed where the source would panic. -/
theorem c3_drop_check_amended (e : Env) (point : Point) (loans : List Loan)
    (path : Path)
    (hdef : ∀ loan ∈ loans, ∃ sps, e.supportingPrefixesE loan.path = .ok sps)
    (hdangle : ∀ loan ∈ loans,
      ∃ b, mayDangleWithRespectTo e loan.path path = .ok b) :
    checkDrop e point loans path = .ok none ↔
      ∀ loan ∈ loans,
        (IsPathPre loan.path path ∨ IsSupporting e path loan.path) →
        mayDangleWithRespectTo e loan.path path = .ok true := by
  have hdef2 : ∀ l ∈ loans, ∃ b, loanIntersectsE e path l = .ok b := by
    intro l hl
    obtain ⟨sps, hs⟩ := hdef l hl
    exact ⟨_, loanIntersectsE_eq path hs⟩
  obtain ⟨picked, hp, hmem⟩ := filterLoansE_ok hdef2
  have hcd : checkDrop e point loans path = checkDropLoop e point path picked := by
    simp only [checkDrop, hp]
  rw [hcd, checkDropLoop_none point path (fun l hl => hdangle l ((hmem l).mp hl).1)]
  constructor
  · intro h loan hl hint
    obtain ⟨sps, hs⟩ := hdef loan hl
    exact h loan ((hmem loan).mpr ⟨hl,
      (loanIntersectsE_true_iff path hs).mpr hint⟩)
  · intro h loan hl
    obtain ⟨hl2, htrue⟩ := (hmem loan).mp hl
    obtain ⟨sps, hs⟩ := hdef loan hl2
    exact h loan hl2 ((loanIntersectsE_true_iff path hs).mp htrue)

/-- Witness for the amended C3 at a concrete input: one mutable loan
of `x`, drop of `x` (the loan intersects and does not may-dangle, so
the check fails, matching the right-hand side). -/
theorem c3_drop_check_witness :
    checkDrop envBW ⟨0, 1⟩ [loanX] (.var "x") = .ok none ↔
      ∀ loan ∈ [loanX],
        (IsPathPre loan.path (.var "x") ∨
         IsSupporting envBW (.var "x") loan.path) →
        mayDangleWithRespectTo envBW loan.path (.var "x") = .ok true :=
  c3_drop_check_amended envBW ⟨0, 1⟩ [loanX] (.var "x")
    (by
      intro loan hl
      rw [List.mem_singleton] at hl
      subst hl
      exact ⟨[.var "x"], rfl⟩)
    (by
      intro loan hl
      rw [List.mem_singleton] at hl
      subst hl
      exact ⟨false, rfl⟩)

/-! ### Inference error-recording (claims C5, C10) -/

/-- `region_variable` never touches the constraint list. -/
theorem regionVariable_constraints (st : RCK) (n : RegName) :
    (st.regionVariable n).1.infer.constraints = st.infer.constraints := by
  rw [RCK.regionVariable]
  cases lookupName st.regionMap n
  · rfl
  · rfl

/-- Claim C5, counterexample: growing a capped variable through
`add_live_point` with point `(0, 2)` records an inference error at
`(0, 2)` itself — not at the decremented point `(0, 1)` the claim
requires for every growth. -/
theorem c5_growth_point_cex :
    (ctxC5.addLivePoint 0 ⟨0, 2⟩).errors = [⟨⟨0, 2⟩, "a"⟩] ∧
    (⟨0, 2⟩ : Point) ≠ ⟨0, 1⟩ :=
  ⟨rfl, by decide⟩

/-- Claim C5 (amended): growing a capped variable's value through
`add_live_point` records an inference error at the growth-causing
point itself (no decrement), while growth caused by propagating an
outlives constraint during `solve` records the error at the
constraint's point with its action index decremented by 1 (after
asserting the index is positive). -/
theorem c5_capped_growth_errors :
    (∀ (cx : InferCtx) (v : Nat) (p : Point) (d : VarDef),
      cx.defs.get? v = some d → d.capped = true → ¬ p ∈ d.value →
      (cx.addLivePoint v p).errors = cx.errors ++ [⟨p, d.name⟩]) ∧
    (∀ (e : Env) (cx : InferCtx) (c : ConstraintC) (subDef supDef : VarDef),
      cx.defs.get? c.sub = some subDef → cx.defs.get? c.sup = some supDef →
      supDef.capped = true →
      (dfsCopy e subDef.value supDef.value c.point).1 = true →
      c.point.action > 0 →
      ∃ cx2, solveStep e cx c = .ok (true, cx2) ∧
        cx2.errors = cx.errors ++
          [⟨⟨c.point.block, c.point.action - 1⟩, supDef.name⟩]) := by
  constructor
  · intro cx v p d hget hcap hmem
    rw [List.get?_eq_getElem?] at hget
    simp [InferCtx.addLivePoint, hget, regionAddPoint, if_neg hmem, hcap]
  · intro e cx c subDef supDef hsub hsup hcap hchanged haction
    rw [List.get?_eq_getElem?] at hsub hsup
    refine ⟨⟨cx.defs.set c.sup
        { supDef with value := (dfsCopy e subDef.value supDef.value c.point).2 },
      cx.constraints,
      cx.errors ++ [⟨⟨c.point.block, c.point.action - 1⟩, supDef.name⟩]⟩,
      ?_, rfl⟩
    simp [solveStep, hsub, hsup, hchanged, hcap, haction]

/-- Witness for the amended C5 at concrete inputs: the seeding half at
`ctxC5` and the solving half at `ctxIW` with the constraint recorded
at `(0, 1)`. -/
theorem c5_capped_growth_errors_witness :
    (ctxC5.addLivePoint 0 ⟨0, 2⟩).errors =
      ctxC5.errors ++ [⟨⟨0, 2⟩, "a"⟩] ∧
    ∃ cx2, solveStep envIW ctxIW ⟨0, 1, ⟨0, 1⟩⟩ = .ok (true, cx2) ∧
      cx2.errors = ctxIW.errors ++ [⟨⟨0, 0⟩, "t"⟩] :=
  ⟨c5_capped_growth_errors.1 ctxC5 0 ⟨0, 2⟩ ⟨"a", [⟨0, 0⟩], true⟩ rfl rfl
      (by decide),
   c5_capped_growth_errors.2 envIW ctxIW ⟨0, 1, ⟨0, 1⟩⟩
      ⟨"s", [⟨0, 0⟩, ⟨0, 1⟩], false⟩ ⟨"t", [⟨0, 0⟩], true⟩ rfl rfl rfl rfl
      (by decide)⟩

/-- Claim C10: if, during constraint solving, a capped region variable
grows due to a constraint whose recorded point has action index 0, the
process aborts on the assertion `constraint.point.action > 0` instead
of reporting an inference error; and a `Constraint(Outlives)` action
records its constraint at the action's own point (unlike borrows and
assignments, which use the successor point), so a constraint action at
index 0 of a block produces exactly such a constraint. -/
theorem c10_action_zero_assert :
    (∀ (e : Env) (cx : InferCtx) (c : ConstraintC) (subDef supDef : VarDef),
      cx.defs.get? c.sub = some subDef → cx.defs.get? c.sup = some supDef →
      supDef.capped = true →
      (dfsCopy e subDef.value supDef.value c.point).1 = true →
      c.point.action = 0 →
      solveStep e cx c =
        .error "assertion failed: constraint.point.action > 0") ∧
    (∀ (e : Env) (st : RCK) (p : Point) (supN subN : RegName),
      ∃ st2, populateActionConstraints e st p (.constr (.outlives supN subN)) =
        .ok st2 ∧
        st2.infer.constraints = st.infer.constraints ++
          [⟨((st.regionVariable supN).1.regionVariable subN).2,
            (st.regionVariable supN).2, p⟩]) := by
  constructor
  · intro e cx c subDef supDef hsub hsup hcap hchanged haction
    rw [List.get?_eq_getElem?] at hsub hsup
    have h0 : ¬ c.point.action > 0 := by omega
    simp [solveStep, hsub, hsup, hchanged, hcap, h0]
  · intro e st p supN subN
    refine ⟨_, rfl, ?_⟩
    simp only [InferCtx.addOutlives]
    rw [regionVariable_constraints, regionVariable_constraints]

/-- Witness for C10 at concrete inputs: the solver step aborts on the
constraint recorded at `(0, 0)`, and a `Constraint(Outlives)` action
at index 0 records its constraint at `(0, 0)` itself. -/
theorem c10_action_zero_assert_witness :
    solveStep envIW ctxIW ⟨0, 1, ⟨0, 0⟩⟩ =
      .error "assertion failed: constraint.point.action > 0" ∧
    ∃ st2, populateActionConstraints envIW rck0 ⟨0, 0⟩
        (.constr (.outlives "p" "q")) = .ok st2 ∧
      st2.infer.constraints = rck0.infer.constraints ++
        [⟨((rck0.regionVariable "p").1.regionVariable "q").2,
          (rck0.regionVariable "p").2, ⟨0, 0⟩⟩] :=
  ⟨c10_action_zero_assert.1 envIW ctxIW ⟨0, 1, ⟨0, 0⟩⟩
      ⟨"s", [⟨0, 0⟩, ⟨0, 1⟩], false⟩ ⟨"t", [⟨0, 0⟩], true⟩ rfl rfl rfl rfl rfl,
   c10_action_zero_assert.2 envIW rck0 ⟨0, 0⟩ "p" "q"⟩

/-! ### Liveness region sets (claim C6) -/

theorem exceptBind_ok_iff {α β : Type} {x : Except String α}
    {f : α → Except String β} {b : β} :
    (x >>= f) = .ok b ↔ ∃ a, x = .ok a ∧ f a = .ok b := by
  cases x with
  | error m =>
    constructor
    · intro h
      exact Except.noConfusion h
    · rintro ⟨a, ha, -⟩
      exact Except.noConfusion ha
  | ok a =>
    constructor
    · intro h
      exact ⟨a, rfl, h⟩
    · rintro ⟨a2, ha, hf⟩
      injection ha with ha
      rw [← ha] at hf
      exact hf

theorem exceptPure_ok_iff {β : Type} {a b : β} :
    (pure a : Except String β) = .ok b ↔ a = b := by
  constructor
  · intro h
    exact Except.ok.inj h
  · intro h
    rw [h]
    exact rfl

theorem assertFreeE_ok_iff {x : RRegion} {n : RegName} :
    x.assertFreeE = .ok n ↔ x = .free n := by
  cases x with
  | free m =>
    constructor
    · intro h
      injection h with h
      rw [h]
    · intro h
      injection h with h
      rw [h]
      rfl
  | bound i =>
    constructor
    · intro h
      exact Except.noConfusion h
    · intro h
      exact RRegion.noConfusion h

theorem mem_insertName {acc : List RegName} {n m : RegName} :
    m ∈ insertName acc n ↔ m ∈ acc ∨ m = n := by
  rw [insertName]
  by_cases h : n ∈ acc
  · rw [if_pos h]
    constructor
    · exact Or.inl
    · rintro (h2 | rfl)
      · exact h2
      · exact h
  · rw [if_neg h]
    simp

/-- The fold at the heart of `use_ty`: insert the asserted-free names
of the walked regions. -/
theorem foldInsertFree_char {rs : List RRegion} : ∀ {acc s : List RegName},
    rs.foldlM (fun acc r => do
      pure (insertName acc (← r.assertFreeE))) acc = .ok s →
    ∀ n, (n ∈ s ↔ n ∈ acc ∨ .free n ∈ rs) := by
  induction rs with
  | nil =>
    intro acc s h n
    rw [List.foldlM_nil, exceptPure_ok_iff] at h
    subst h
    simp
  | cons x rest ih =>
    intro acc s h n
    rw [List.foldlM_cons, exceptBind_ok_iff] at h
    obtain ⟨acc2, hstep, hrest⟩ := h
    rw [exceptBind_ok_iff] at hstep
    obtain ⟨nx, hfree, hpure⟩ := hstep
    rw [assertFreeE_ok_iff] at hfree
    rw [exceptPure_ok_iff] at hpure
    subst hfree
    subst hpure
    rw [ih hrest n, mem_insertName]
    constructor
    · rintro ((h2 | rfl) | h2)
      · exact Or.inl h2
      · exact Or.inr (List.mem_cons_self _ _)
      · exact Or.inr (List.mem_cons_of_mem _ h2)
    · rintro (h2 | h2)
      · exact Or.inl (Or.inl h2)
      · rcases List.mem_cons.mp h2 with h2 | h2
        · injection h2 with h2
          exact Or.inl (Or.inr h2)
        · exact Or.inr h2

mutual
/-- `walk_regions` yields exactly the regions occurring in the type. -/
theorem walkRegionsE_char : ∀ {ty : Ty} {rs : List RRegion},
    ty.walkRegionsE = .ok rs → ∀ r, (.free r ∈ rs ↔ UseRegion ty r)
  | .ref rn k t, rs, h, r => by
      rw [Ty.walkRegionsE, exceptBind_ok_iff] at h
      obtain ⟨ws, hw, hp⟩ := h
      rw [exceptPure_ok_iff] at hp
      subst hp
      rw [List.mem_cons]
      constructor
      · rintro (h2 | h2)
        · rw [← h2]
          exact UseRegion.refOwn
        · exact UseRegion.refInner ((walkRegionsE_char hw r).mp h2)
      · intro h2
        cases h2 with
        | refOwn => exact Or.inl rfl
        | refInner h3 => exact Or.inr ((walkRegionsE_char hw r).mpr h3)
  | .unit, rs, h, r => by
      rw [Ty.walkRegionsE, exceptPure_ok_iff] at h
      subst h
      constructor
      · intro h2
        cases h2
      · intro h2
        cases h2
  | .struct n ps, rs, h, r => by
      rw [Ty.walkRegionsE] at h
      constructor
      · intro h2
        exact UseRegion.inStruct ((walkListE_char h r).mp h2)
      · intro h2
        cases h2 with
        | inStruct h3 => exact (walkListE_char h r).mpr h3
  | .bound i, rs, h, r => by
      rw [Ty.walkRegionsE] at h
      exact Except.noConfusion h

/-- `walk_regions` over a parameter vector. -/
theorem walkListE_char : ∀ {ps : TyParams} {rs : List RRegion},
    TyParams.walkList ps = .ok rs → ∀ r, (.free r ∈ rs ↔ UseParamsRegion ps r)
  | .nil, rs, h, r => by
      rw [TyParams.walkList, exceptPure_ok_iff] at h
      subst h
      constructor
      · intro h2
        cases h2
      · intro h2
        cases h2
  | .cons (.region rn) rest, rs, h, r => by
      rw [TyParams.walkList, exceptBind_ok_iff] at h
      obtain ⟨ws, hw, hp⟩ := h
      rw [exceptPure_ok_iff] at hp
      subst hp
      rw [List.mem_cons]
      constructor
      · rintro (h2 | h2)
        · rw [← h2]
          exact UseParamsRegion.regionHead
        · exact UseParamsRegion.tail ((walkListE_char hw r).mp h2)
      · intro h2
        cases h2 with
        | regionHead => exact Or.inl rfl
        | tail h3 => exact Or.inr ((walkListE_char hw r).mpr h3)
  | .cons (.ty t) rest, rs, h, r => by
      rw [TyParams.walkList, exceptBind_ok_iff] at h
      obtain ⟨ws, hw, h⟩ := h
      rw [exceptBind_ok_iff] at h
      obtain ⟨ws2, hw2, hp⟩ := h
      rw [exceptPure_ok_iff] at hp
      subst hp
      rw [List.mem_append]
      constructor
      · rintro (h2 | h2)
        · exact UseParamsRegion.tyHead ((walkRegionsE_char hw r).mp h2)
        · exact UseParamsRegion.tail ((walkListE_char hw2 r).mp h2)
      · intro h2
        cases h2 with
        | tyHead h3 => exact Or.inl ((walkRegionsE_char hw r).mpr h3)
        | tail h3 => exact Or.inr ((walkListE_char hw2 r).mpr h3)
end

/-- `use_ty` accumulates exactly the regions of the type. -/
theorem useTyAcc_char {acc : List RegName} {ty : Ty} {s : List RegName}
    (h : useTyAcc acc ty = .ok s) (r : RegName) :
    r ∈ s ↔ r ∈ acc ∨ UseRegion ty r := by
  rw [useTyAcc, exceptBind_ok_iff] at h
  obtain ⟨rs, hw, hf⟩ := h
  rw [foldInsertFree_char hf r]
  rw [walkRegionsE_char hw r]

mutual
/-- `drop_ty` accumulates exactly the drop-live regions of the
type. -/
theorem dropTyAcc_char : ∀ {e : Env} {acc : List RegName} {ty : Ty}
    {s : List RegName}, dropTyAcc e acc ty = .ok s →
    ∀ r, (r ∈ s ↔ r ∈ acc ∨ DropRegion e ty r)
  | e, acc, .ref rn k t, s, h, r => by
      rw [dropTyAcc] at h
      injection h with h
      subst h
      constructor
      · exact Or.inl
      · rintro (h2 | h2)
        · exact h2
        · cases h2
  | e, acc, .unit, s, h, r => by
      rw [dropTyAcc] at h
      injection h with h
      subst h
      constructor
      · exact Or.inl
      · rintro (h2 | h2)
        · exact h2
        · cases h2
  | e, acc, .struct sName ps, s, h, r => by
      rw [dropTyAcc, exceptBind_ok_iff] at h
      obtain ⟨sd, hsd, h⟩ := h
      by_cases hlen : sd.params.length = ps.length
      · rw [if_pos hlen] at h
        rw [dropParamsAcc_char h r]
        constructor
        · rintro (h2 | h2)
          · exact Or.inl h2
          · exact Or.inr (DropRegion.ofParams hsd hlen h2)
        · rintro (h2 | h2)
          · exact Or.inl h2
          · cases h2 with
            | ofParams hsd2 hlen2 h3 =>
              rw [hsd] at hsd2
              injection hsd2 with hsd2
              subst hsd2
              exact Or.inr h3
      · rw [if_neg hlen] at h
        exact Except.noConfusion h
  | e, acc, .bound i, s, h, r => by
      rw [dropTyAcc] at h
      exact Except.noConfusion h

/-- The parameter loop of `drop_ty`. -/
theorem dropParamsAcc_char : ∀ {e : Env} {acc : List RegName}
    {pds : List StructParam} {ps : TyParams} {s : List RegName},
    dropParamsAcc e acc pds ps = .ok s →
    ∀ r, (r ∈ s ↔ r ∈ acc ∨ DropParamsRegion e pds ps r)
  | e, acc, pds, .nil, s, h, r => by
      rw [dropParamsAcc] at h
      injection h with h
      subst h
      constructor
      · exact Or.inl
      · rintro (h2 | h2)
        · exact h2
        · cases h2
  | e, acc, [], .cons p rest, s, h, r => by
      rw [dropParamsAcc] at h
      exact Except.noConfusion h
  | e, acc, pd :: pds, .cons (.region rr) rest, s, h, r => by
      rw [dropParamsAcc] at h
      by_cases hd : pd.mayDangle = true
      · rw [if_pos hd, exceptBind_ok_iff] at h
        obtain ⟨acc2, hstep, hrest⟩ := h
        rw [exceptPure_ok_iff] at hstep
        subst hstep
        rw [dropParamsAcc_char hrest r]
        constructor
        · rintro (h2 | h2)
          · exact Or.inl h2
          · exact Or.inr (DropParamsRegion.tail h2)
        · rintro (h2 | h2)
          · exact Or.inl h2
          · cases h2 with
            | regionHead hmd => rw [hd] at hmd; exact Bool.noConfusion hmd
            | tail h3 => exact Or.inr h3
      · rw [if_neg hd, exceptBind_ok_iff] at h
        obtain ⟨nr, hfree, h⟩ := h
        rw [assertFreeE_ok_iff] at hfree
        subst hfree
        rw [exceptBind_ok_iff] at h
        obtain ⟨acc2, hpure, hrest⟩ := h
        rw [exceptPure_ok_iff] at hpure
        subst hpure
        rw [dropParamsAcc_char hrest r, mem_insertName]
        have hd2 : pd.mayDangle = false := by
          cases hmd : pd.mayDangle
          · rfl
          · exact absurd hmd hd
        constructor
        · rintro ((h2 | rfl) | h2)
          · exact Or.inl h2
          · exact Or.inr (DropParamsRegion.regionHead hd2)
          · exact Or.inr (DropParamsRegion.tail h2)
        · rintro (h2 | h2)
          · exact Or.inl (Or.inl h2)
          · cases h2 with
            | regionHead hmd => exact Or.inl (Or.inr rfl)
            | tail h3 => exact Or.inr h3
  | e, acc, pd :: pds, .cons (.ty t) rest, s, h, r => by
      rw [dropParamsAcc] at h
      by_cases hd : pd.mayDangle = true
      · rw [if_pos hd, exceptBind_ok_iff] at h
        obtain ⟨acc2, hstep, hrest⟩ := h
        rw [dropParamsAcc_char hrest r, dropTyAcc_char hstep r]
        constructor
        · rintro ((h2 | h2) | h2)
          · exact Or.inl h2
          · exact Or.inr (DropParamsRegion.tyHeadDrop hd h2)
          · exact Or.inr (DropParamsRegion.tail h2)
        · rintro (h2 | h2)
          · exact Or.inl (Or.inl h2)
          · cases h2 with
            | tyHeadUse hmd h3 => rw [hd] at hmd; exact Bool.noConfusion hmd
            | tyHeadDrop hmd h3 => exact Or.inl (Or.inr h3)
            | tail h3 => exact Or.inr h3
      · rw [if_neg hd, exceptBind_ok_iff] at h
        obtain ⟨acc2, hstep, hrest⟩ := h
        have hd2 : pd.mayDangle = false := by
          cases hmd : pd.mayDangle
          · rfl
          · exact absurd hmd hd
        rw [dropParamsAcc_char hrest r, useTyAcc_char hstep r]
        constructor
        · rintro ((h2 | h2) | h2)
          · exact Or.inl h2
          · exact Or.inr (DropParamsRegion.tyHeadUse hd2 h2)
          · exact Or.inr (DropParamsRegion.tail h2)
        · rintro (h2 | h2)
          · exact Or.inl (Or.inl h2)
          · cases h2 with
            | tyHeadUse hmd h3 => exact Or.inl (Or.inr h3)
            | tyHeadDrop hmd h3 => rw [hd2] at hmd; exact Bool.noConfusion hmd
            | tail h3 => exact Or.inr h3
end

/-- Claim C6, counterexample to "all regions and types appearing under
a `may_dangle` parameter contribute nothing to drop-liveness": for
`A<#[may_dangle] T>` instantiated at `B<'r>` (whose region parameter is
not `may_dangle`), `drop_ty` contributes `'r` — a `may_dangle` type
parameter is recursed into with `drop_ty` rather than ignored. -/
theorem c6_may_dangle_cex :
    dropTyAcc envC6 [] tyAB = .ok ["r"] ∧
    envC6.structDecl "A" = .ok ⟨"A", [⟨.typeK, .co, true⟩], []⟩ ∧
    tyAB = .struct "A" (.cons (.ty tyB) .nil) ∧
    tyB = .struct "B" (.cons (.region (.free "r")) .nil) :=
  ⟨rfl, rfl, rfl, rfl⟩

/-- Claim C6 (amended): use-liveness (`use_ty`, reached from a live
`VariableUsed` bit in `regions_set`) contributes every region of the
type, while drop-liveness (`drop_ty`, reached from a live
`VariableDrop` bit) applies the `may_dangle` mask per struct
parameter: an unmasked region parameter contributes itself, an
unmasked type parameter contributes all its regions, and a
`may_dangle` type parameter contributes its recursive drop-liveness
regions (rather than nothing); `may_dangle` region parameters,
references and unit contribute nothing. -/
theorem c6_drop_liveness_mask (e : Env) (ty : Ty) :
    (∀ s, useTyAcc [] ty = .ok s → ∀ r, (r ∈ s ↔ UseRegion ty r)) ∧
    (∀ s, dropTyAcc e [] ty = .ok s → ∀ r, (r ∈ s ↔ DropRegion e ty r)) := by
  constructor
  · intro s h r
    rw [useTyAcc_char h r]
    simp
  · intro s h r
    rw [dropTyAcc_char h r]
    simp

/-- Witness for C6 at concrete inputs: `drop_ty` on `A<B<'r>>` yields
exactly `{'r}` via the masked recursion, and `use_ty` on `B<'r>`
yields `{'r}`. -/
theorem c6_drop_liveness_mask_witness :
    ("r" ∈ (["r"] : List RegName) ↔ DropRegion envC6 tyAB "r") ∧
    ("r" ∈ (["r"] : List RegName) ↔ UseRegion tyB "r") :=
  ⟨(c6_drop_liveness_mask envC6 tyAB).2 ["r"] rfl "r",
   (c6_drop_liveness_mask envC6 tyB).1 ["r"] rfl "r"⟩

/-! ### Loans-in-scope dataflow direction (claim C1) -/

/-- Claim C1, exhibited failure: in `funcC1`, the loan `ℓ` of `x` is
issued at `(START, 0) = (0, 0)`, the point `(B, 0) = (1, 0)` lies in
`ℓ`'s region's inferred value, and no overwriting action lies between
`ℓ`'s point and `(B, 0)` (the only other action is B's `Noop`, which
overwrites nothing) — yet the loans-in-scope set passed to the walk
callback at `(B, 0)` is empty.  The cause: `simulate_block`
initializes its buffer from the after-block bits of the block's graph
*successors*, contradicting its own comment ("everything live at end
of a pred is live at the exit of the block") and the forward-dataflow
in-scope invariant the claim states, so a loan never propagates from
START into B. -/
theorem c1_loans_in_scope_bug :
    pipelineLoansAt funcC1 ⟨1, 0⟩ = .ok [[]] ∧
    (pipelineRegionValue funcC1 "a").map (fun v => regionContains v ⟨1, 0⟩) =
      .ok true ∧
    ((runPipeline funcC1).map fun p => p.loans.map fun l => (l.point, l.path)) =
      .ok [(⟨0, 0⟩, .var "x")] ∧
    ActionKind.noop.overwrites = none :=
  ⟨rfl, rfl, rfl, rfl⟩

/-! ### Noop insertion (claim C9) -/

/-- Claim C9, counterexample: inserting a `Noop` into the empty START
block of `funcC9a` flips the outcome of the assertion
`'a not_in (START/1)` from pass to fail — the free region `'a` is
seeded with every point of every block, and the insertion creates the
new point `(START, 1)`. -/
theorem c9_noop_insertion_cex :
    assertionOutcomes funcC9a = .ok [true] ∧
    assertionOutcomes funcC9b = .ok [false] ∧
    funcC9b = { funcC9a with
      blocks := [⟨"START", [⟨.noop, false, none⟩], []⟩] } :=
  ⟨rfl, rfl, rfl⟩

/-- Claim C9 (amended): a `Noop` action is inert for every transfer
function — it defines and uses no variables, overwrites no path, adds
no liveness bits, induces no inference constraints, and passes the
borrow check — but inserting or removing one changes the set of
program points (and shifts the indices of subsequent actions), so
assertion outcomes can change (see `c9_noop_insertion_cex`). -/
theorem c9_noop_neutral :
    ActionKind.noop.defUse = ([], []) ∧
    ActionKind.noop.overwrites = none ∧
    (∀ buf : BitBuf, livenessTransfer .noop buf = buf) ∧
    (∀ (e : Env) (st : RCK) (p : Point),
      populateActionConstraints e st p .noop = .ok st) ∧
    (∀ (e : Env) (p : Point) (loans : List Loan),
      checkAction e p loans .noop = .ok none) :=
  ⟨rfl, rfl, fun _ => rfl, fun _ _ _ => rfl, fun _ _ _ => rfl⟩

/-! ### Free-region seeding (claim C4) -/

theorem addLivePoint_length (cx : InferCtx) (v : Nat) (p : Point) :
    (cx.addLivePoint v p).defs.length = cx.defs.length := by
  rw [InferCtx.addLivePoint]
  cases cx.defs.get? v with
  | none => rfl
  | some d =>
    by_cases h : (regionAddPoint d.value p).1 && d.capped
    · simp only [if_pos h, List.length_set]
    · simp only [if_neg h, List.length_set]

theorem addLivePoint_get_ne (cx : InferCtx) (v : Nat) (p : Point) (w : Nat)
    (h : w ≠ v) : (cx.addLivePoint v p).defs.get? w = cx.defs.get? w := by
  rw [InferCtx.addLivePoint]
  cases cx.defs.get? v with
  | none => rfl
  | some d =>
    by_cases h2 : (regionAddPoint d.value p).1 && d.capped
    · simp only [if_pos h2]
      exact List.get?_set_ne _ _ (Ne.symm h)
    · simp only [if_neg h2]
      exact List.get?_set_ne _ _ (Ne.symm h)

theorem addLivePoint_meta (cx : InferCtx) (v : Nat) (p : Point) :
    ((cx.addLivePoint v p).defs.get? v).map (fun d => (d.name, d.capped)) =
      (cx.defs.get? v).map (fun d => (d.name, d.capped)) := by
  rw [InferCtx.addLivePoint]
  cases hg : cx.defs.get? v with
  | none => rw [hg]
  | some d =>
    have hlt : v < cx.defs.length := by
      by_contra h2
      rw [List.get?_eq_none.mpr (Nat.le_of_not_lt h2)] at hg
      exact Option.noConfusion hg
    by_cases h2 : (regionAddPoint d.value p).1 && d.capped
    · simp only [if_pos h2, List.get?_set_eq_of_lt _ hlt, hg, Option.map_some]
      rfl
    · simp only [if_neg h2, List.get?_set_eq_of_lt _ hlt, hg, Option.map_some]
      rfl

theorem addLivePoint_mem (cx : InferCtx) (v : Nat) (p : Point)
    (h : v < cx.defs.length) (q : Point) :
    q ∈ (cx.addLivePoint v p).regionValue v ↔
      q = p ∨ q ∈ cx.regionValue v := by
  rcases hd : cx.defs.get? v with _ | d
  · rw [List.get?_eq_none] at hd
    exact absurd h (Nat.not_lt.mpr hd)
  have hval : (cx.addLivePoint v p).defs.get? v =
      some { d with value := (regionAddPoint d.value p).2 } := by
    rw [InferCtx.addLivePoint, hd]
    by_cases h2 : (regionAddPoint d.value p).1 && d.capped
    · simp only [if_pos h2]
      exact List.get?_set_eq_of_lt _ h
    · simp only [if_neg h2]
      exact List.get?_set_eq_of_lt _ h
  rw [InferCtx.regionValue, InferCtx.regionValue, hval, hd]
  show q ∈ (regionAddPoint d.value p).2 ↔ q = p ∨ q ∈ d.value
  rw [regionAddPoint]
  by_cases h3 : p ∈ d.value
  · rw [if_pos h3]
    show q ∈ d.value ↔ q = p ∨ q ∈ d.value
    constructor
    · exact fun h4 => Or.inr h4
    · rintro (rfl | h4)
      · exact h3
      · exact h4
  · rw [if_neg h3]
    show q ∈ p :: d.value ↔ q = p ∨ q ∈ d.value
    exact List.mem_cons

theorem regionValue_congr {cx cx' : InferCtx} {v : Nat}
    (h : cx'.defs.get? v = cx.defs.get? v) :
    cx'.regionValue v = cx.regionValue v := by
  rw [InferCtx.regionValue, InferCtx.regionValue, h]

theorem get?_append_ne {α : Type} (l : List α) (v : α) (w : Nat)
    (h : w ≠ l.length) : (l ++ [v]).get? w = l.get? w := by
  rcases Nat.lt_or_ge w l.length with h1 | h1
  · exact List.get?_append h1
  · have h2 : l.length < w := Nat.lt_of_le_of_ne h1 (Ne.symm h)
    have e1 : (l ++ [v]).get? w = none := by
      rw [List.get?_eq_none]
      simpa using h2
    have e2 : l.get? w = none := List.get?_eq_none.mpr h1
    rw [e1, e2]

theorem capVar_length (cx : InferCtx) (v : Nat) :
    (cx.capVar v).defs.length = cx.defs.length := by
  rw [InferCtx.capVar]
  cases cx.defs.get? v with
  | none => rfl
  | some d => simp only [List.length_set]

theorem capVar_get_ne (cx : InferCtx) (v w : Nat) (h : w ≠ v) :
    (cx.capVar v).defs.get? w = cx.defs.get? w := by
  rw [InferCtx.capVar]
  cases cx.defs.get? v with
  | none => rfl
  | some d => exact List.get?_set_ne _ _ (Ne.symm h)

theorem capVar_regionValue (cx : InferCtx) (v : Nat) :
    (cx.capVar v).regionValue v = cx.regionValue v := by
  rw [InferCtx.capVar]
  rcases hg : cx.defs.get? v with _ | d
  · rfl
  · have hlt : v < cx.defs.length := by
      by_contra h2
      rw [List.get?_eq_none.mpr (Nat.le_of_not_lt h2)] at hg
      exact Option.noConfusion hg
    rw [InferCtx.regionValue, InferCtx.regionValue]
    simp only [List.get?_set_eq_of_lt _ hlt, hg]
    rfl

theorem capVar_capped (cx : InferCtx) (v : Nat) (h : v < cx.defs.length) :
    ((cx.capVar v).defs.get? v).map VarDef.capped = some true := by
  rcases hg : cx.defs.get? v with _ | d
  · rw [List.get?_eq_none] at hg
    exact absurd h (Nat.not_lt.mpr hg)
  · rw [InferCtx.capVar, hg]
    simp only [List.get?_set_eq_of_lt _ h, Option.map_some]
    rfl

theorem skolEnd_find (f : Func) (r : RegName) (ei : Nat)
    (h : FuncGraph.skolemizedEndIdx f r = some ei) :
    ∃ rd, (f.regions.find? fun rd => rd.name = r) = some rd ∧ rd.name = r := by
  rcases hf : f.regions.find? fun rd => rd.name = r with _ | rd
  · exfalso
    rw [FuncGraph.skolemizedEndIdx] at h
    have hn :f.regions.findIdx? (fun rd => decide (rd.name = r)) = none := by
      rw [List.findIdx?_eq_none_iff]
      intro x hx
      have h2 := List.find?_eq_none.mp hf x hx
      simpa using h2
    rw [hn] at h
    exact Option.noConfusion h
  · exact ⟨rd, hf, by simpa using List.find?_some hf⟩

theorem lookupName_append_of_none (m1 m2 : List (RegName × Nat)) (n : RegName)
    (h : lookupName m1 n = none) :
    lookupName (m1 ++ m2) n = lookupName m2 n := by
  rw [lookupName] at h ⊢
  rw [List.find?_append]
  rcases hf : m1.find? fun x => x.1 = n with _ | x
  · rw [hf, Option.none_or]
    rfl
  · rw [hf] at h
    exact Option.noConfusion h

theorem lookupName_append_of_some (m1 m2 : List (RegName × Nat)) (n : RegName)
    (v : Nat) (h : lookupName m1 n = some v) :
    lookupName (m1 ++ m2) n = some v := by
  rw [lookupName] at h ⊢
  rw [List.find?_append]
  rcases hf : m1.find? fun x => x.1 = n with _ | x
  · rw [hf] at h
    exact Option.noConfusion h
  · rw [hf] at h
    rw [hf]
    exact h

theorem lookupName_singleton_self (n : RegName) (v : Nat) :
    lookupName [(n, v)] n = some v := by
  simp [lookupName]

theorem lookupName_singleton_ne (a n : RegName) (v : Nat) (h : n ≠ a) :
    lookupName [(a, v)] n = none := by
  simp [lookupName, h, Ne.symm h]

theorem seedActions_char (rv b : Nat) (cx : InferCtx) (hrv : rv < cx.defs.length) :
    ∀ m : Nat,
      ((List.range m).foldl (fun cx2 a => cx2.addLivePoint rv ⟨b, a⟩) cx).defs.length
          = cx.defs.length ∧
      (∀ w, w ≠ rv →
        ((List.range m).foldl (fun cx2 a => cx2.addLivePoint rv ⟨b, a⟩) cx).defs.get? w
          = cx.defs.get? w) ∧
      (∀ q, q ∈ ((List.range m).foldl
          (fun cx2 a => cx2.addLivePoint rv ⟨b, a⟩) cx).regionValue rv ↔
        q ∈ cx.regionValue rv ∨ ∃ i, i < m ∧ q = ⟨b, i⟩) := by
  intro m
  induction m with
  | zero =>
    refine ⟨rfl, fun w _ => rfl, fun q => ?_⟩
    simp
  | succ m ih =>
    obtain ⟨ih1, ih2, ih3⟩ := ih
    have hr : List.range (m + 1) = List.range m ++ [m] := by
      rw [List.range_succ]
    rw [hr, List.foldl_append]
    simp only [List.foldl_cons, List.foldl_nil]
    set mid := (List.range m).foldl (fun cx2 a => cx2.addLivePoint rv ⟨b, a⟩) cx
      with hmid
    have hrvm : rv < mid.defs.length := by rw [ih1]; exact hrv
    refine ⟨?_, ?_, ?_⟩
    · rw [addLivePoint_length, ih1]
    · intro w hw
      rw [addLivePoint_get_ne _ _ _ _ hw, ih2 w hw]
    · intro q
      rw [addLivePoint_mem _ _ _ hrvm q, ih3 q]
      constructor
      · rintro (rfl | (hq | ⟨i, hi, rfl⟩))
        · exact Or.inr ⟨m, Nat.lt_succ_self m, rfl⟩
        · exact Or.inl hq
        · exact Or.inr ⟨i, Nat.lt_succ_of_lt hi, rfl⟩
      · rintro (hq | ⟨i, hi, rfl⟩)
        · exact Or.inr (Or.inl hq)
        · rcases Nat.lt_succ_iff_lt_or_eq.mp hi with hi2 | rfl
          · exact Or.inr (Or.inr ⟨i, hi2, rfl⟩)
          · exact Or.inl rfl

theorem seedBlock_char (e : Env) (rv : Nat) (cx : InferCtx) (b : Nat)
    (hrv : rv < cx.defs.length) :
    (seedBlock e rv cx b).defs.length = cx.defs.length ∧
    (∀ w, w ≠ rv → (seedBlock e rv cx b).defs.get? w = cx.defs.get? w) ∧
    (∀ q, q ∈ (seedBlock e rv cx b).regionValue rv ↔
      q ∈ cx.regionValue rv ∨
        ∃ i, i ≤ (FuncGraph.blockActions e.graph b).length ∧ q = ⟨b, i⟩) := by
  obtain ⟨h1, h2, h3⟩ :=
    seedActions_char rv b cx hrv (FuncGraph.blockActions e.graph b).length
  rw [seedBlock]
  simp only [Env.endPoint]
  set mid := (List.range (FuncGraph.blockActions e.graph b).length).foldl
    (fun cx2 a => cx2.addLivePoint rv ⟨b, a⟩) cx with hmid
  have hrvm : rv < mid.defs.length := by rw [h1]; exact hrv
  refine ⟨?_, ?_, ?_⟩
  · rw [addLivePoint_length, h1]
  · intro w hw
    rw [addLivePoint_get_ne _ _ _ _ hw, h2 w hw]
  · intro q
    rw [addLivePoint_mem _ _ _ hrvm q, h3 q]
    constructor
    · rintro (rfl | (hq | ⟨i, hi, rfl⟩))
      · exact Or.inr ⟨(FuncGraph.blockActions e.graph b).length, Nat.le_refl _, rfl⟩
      · exact Or.inl hq
      · exact Or.inr ⟨i, Nat.le_of_lt hi, rfl⟩
    · rintro (hq | ⟨i, hi, rfl⟩)
      · exact Or.inr (Or.inl hq)
      · rcases Nat.lt_or_ge i (FuncGraph.blockActions e.graph b).length with hi2 | hi2
        · exact Or.inr (Or.inr ⟨i, hi2, rfl⟩)
        · have : i = (FuncGraph.blockActions e.graph b).length := Nat.le_antisymm hi hi2
          subst this
          exact Or.inl rfl

theorem seedFold_char (e : Env) (rv : Nat) :
    ∀ (bs : List Nat) (cx : InferCtx), rv < cx.defs.length →
      ((bs.foldl (seedBlock e rv) cx).defs.length = cx.defs.length ∧
      (∀ w, w ≠ rv → (bs.foldl (seedBlock e rv) cx).defs.get? w = cx.defs.get? w) ∧
      (∀ q, q ∈ (bs.foldl (seedBlock e rv) cx).regionValue rv ↔
        q ∈ cx.regionValue rv ∨
          ∃ b, b ∈ bs ∧ ∃ i, i ≤ (FuncGraph.blockActions e.graph b).length ∧
            q = ⟨b, i⟩)) := by
  intro bs
  induction bs with
  | nil =>
    intro cx hrv
    refine ⟨rfl, fun w _ => rfl, fun q => ?_⟩
    simp
  | cons b bs ih =>
    intro cx hrv
    obtain ⟨s1, s2, s3⟩ := seedBlock_char e rv cx b hrv
    have hrv2 : rv < (seedBlock e rv cx b).defs.length := by rw [s1]; exact hrv
    obtain ⟨ih1, ih2, ih3⟩ := ih (seedBlock e rv cx b) hrv2
    rw [List.foldl_cons]
    refine ⟨?_, ?_, ?_⟩
    · rw [ih1, s1]
    · intro w hw
      rw [ih2 w hw, s2 w hw]
    · intro q
      rw [ih3 q, s3 q]
      constructor
      · rintro ((hq | ⟨i, hi, rfl⟩) | ⟨b2, hb2, i, hi, rfl⟩)
        · exact Or.inl hq
        · exact Or.inr ⟨b, List.mem_cons_self b bs, i, hi, rfl⟩
        · exact Or.inr ⟨b2, List.mem_cons_of_mem b hb2, i, hi, rfl⟩
      · rintro (hq | ⟨b2, hb2, i, hi, rfl⟩)
        · exact Or.inl (Or.inl hq)
        · rcases List.mem_cons.mp hb2 with rfl | hb2
          · exact Or.inl (Or.inr ⟨i, hi, rfl⟩)
          · exact Or.inr ⟨b2, hb2, i, hi, rfl⟩

theorem populateOutlivesRun_char (e : Env) (f : Func) (hef : e.graph.func = f)
    (rv : Nat) :
    ∀ (fuel : Nat) (cx : InferCtx) (visited : List RegName)
      (frames : List (List RegName)) (cx' : InferCtx) (visited' : List RegName),
      populateOutlivesRun e rv fuel cx visited frames = .ok (cx', visited') →
      rv < cx.defs.length →
      cx'.defs.length = cx.defs.length ∧
      (∀ w, w ≠ rv → cx'.defs.get? w = cx.defs.get? w) ∧
      (∀ s, s ∈ visited → s ∈ visited') ∧
      (∀ s, s ∈ visited' → s ∈ visited ∨
        ∃ fr, fr ∈ frames ∧ ∃ m, m ∈ fr ∧
          Relation.ReflTransGen (outlivesEdge f) m s) ∧
      (∀ fr, fr ∈ frames → ∀ m, m ∈ fr → m ∈ visited') ∧
      (∀ s, s ∈ visited' → s ∈ visited ∨
        ∃ rds, rds ∈ f.regions ∧ rds.name = s ∧
          ∀ y, y ∈ rds.outlives → y ∈ visited') ∧
      (∀ q, q ∈ cx'.regionValue rv ↔ q ∈ cx.regionValue rv ∨
        ∃ s, s ∈ visited' ∧ s ∉ visited ∧
          ∃ ei, FuncGraph.skolemizedEndIdx f s = some ei ∧ q = ⟨ei, 0⟩) := by
  intro fuel
  induction fuel with
  | zero =>
    intro cx visited frames cx' visited' h hrv
    rw [populateOutlivesRun] at h
    exact Except.noConfusion h
  | succ n ih =>
    intro cx visited frames cx' visited' h hrv
    rcases frames with _ | ⟨fr, frames⟩
    · rw [populateOutlivesRun, exceptPure_ok_iff] at h
      have h1 : cx = cx' := congrArg Prod.fst h
      have h2 : visited = visited' := congrArg Prod.snd h
      subst h1
      subst h2
      refine ⟨rfl, fun w _ => rfl, fun s hs => hs, fun s hs => Or.inl hs,
        fun fr hfr => absurd hfr (List.not_mem_nil fr), fun s hs => Or.inl hs,
        fun q => ?_⟩
      constructor
      · exact fun hq => Or.inl hq
      · rintro (hq | ⟨s, hs, hns, _⟩)
        · exact hq
        · exact absurd hs hns
    rcases fr with _ | ⟨region, pend⟩
    · rw [populateOutlivesRun] at h
      obtain ⟨c1, c2, c3, c4, c5, c6, c7⟩ :=
        ih cx visited frames cx' visited' h hrv
      refine ⟨c1, c2, c3, ?_, ?_, c6, c7⟩
      · intro s hs
        rcases c4 s hs with h1 | ⟨fr, hfr, m, hm, hrt⟩
        · exact Or.inl h1
        · exact Or.inr ⟨fr, List.mem_cons_of_mem _ hfr, m, hm, hrt⟩
      · intro fr hfr m hm
        rcases List.mem_cons.mp hfr with rfl | hfr2
        · exact absurd hm (List.not_mem_nil m)
        · exact c5 fr hfr2 m hm
    · rw [populateOutlivesRun] at h
      by_cases hvis : region ∈ visited
      · rw [if_pos hvis] at h
        obtain ⟨c1, c2, c3, c4, c5, c6, c7⟩ :=
          ih cx visited (pend :: frames) cx' visited' h hrv
        refine ⟨c1, c2, c3, ?_, ?_, c6, c7⟩
        · intro s hs
          rcases c4 s hs with h1 | ⟨fr, hfr, m, hm, hrt⟩
          · exact Or.inl h1
          · rcases List.mem_cons.mp hfr with hfp | hfr2
            · exact Or.inr ⟨region :: pend, List.mem_cons_self _ _, m,
                List.mem_cons_of_mem _ (hfp ▸ hm), hrt⟩
            · exact Or.inr ⟨fr, List.mem_cons_of_mem _ hfr2, m, hm, hrt⟩
        · intro fr hfr m hm
          rcases List.mem_cons.mp hfr with rfl | hfr2
          · rcases List.mem_cons.mp hm with rfl | hm2
            · exact c3 m hvis
            · exact c5 pend (List.mem_cons_self _ _) m hm2
          · exact c5 fr (List.mem_cons_of_mem _ hfr2) m hm
      · rw [if_neg hvis, hef] at h
        rcases hski : FuncGraph.skolemizedEndIdx f region with _ | endIdx
        · rw [hski] at h
          exact Except.noConfusion h
        simp only [hski] at h
        rcases hfind : f.regions.find? fun rd => rd.name = region with _ | rdr
        · exfalso
          obtain ⟨rd2, hf2, _⟩ := skolEnd_find f region endIdx hski
          rw [hfind] at hf2
          exact Option.noConfusion hf2
        simp only [hfind] at h
        have hrdr_mem : rdr ∈ f.regions := List.mem_of_find?_eq_some hfind
        have hrdr_name : rdr.name = region := by
          simpa using List.find?_some hfind
        have hrv2 : rv < (cx.addLivePoint rv ⟨endIdx, 0⟩).defs.length := by
          rw [addLivePoint_length]
          exact hrv
        obtain ⟨c1, c2, c3, c4, c5, c6, c7⟩ :=
          ih (cx.addLivePoint rv ⟨endIdx, 0⟩) (visited ++ [region])
            (rdr.outlives :: pend :: frames) cx' visited' h hrv2
        have hregion_vis : region ∈ visited' :=
          c3 region (List.mem_append_right _ (List.mem_singleton.mpr rfl))
        refine ⟨?_, ?_, ?_, ?_, ?_, ?_, ?_⟩
        · rw [c1, addLivePoint_length]
        · intro w hw
          rw [c2 w hw, addLivePoint_get_ne _ _ _ _ hw]
        · intro s hs
          exact c3 s (List.mem_append_left _ hs)
        · intro s hs
          rcases c4 s hs with h1 | ⟨fr, hfr, m, hm, hrt⟩
          · rcases List.mem_append.mp h1 with h2 | h2
            · exact Or.inl h2
            · have hs_eq : s = region := List.mem_singleton.mp h2
              refine Or.inr ⟨region :: pend, List.mem_cons_self _ _, region,
                List.mem_cons_self _ _, ?_⟩
              rw [hs_eq]
          · rcases List.mem_cons.mp hfr with rfl | hfr2
            · have hedge : outlivesEdge f region m := ⟨rdr, hrdr_mem, hrdr_name, hm⟩
              exact Or.inr ⟨region :: pend, List.mem_cons_self _ _, region,
                List.mem_cons_self _ _, Relation.ReflTransGen.head hedge hrt⟩
            · rcases List.mem_cons.mp hfr2 with hfp | hfr3
              · exact Or.inr ⟨region :: pend, List.mem_cons_self _ _, m,
                  List.mem_cons_of_mem _ (hfp ▸ hm), hrt⟩
              · exact Or.inr ⟨fr, List.mem_cons_of_mem _ hfr3, m, hm, hrt⟩
        · intro fr hfr m hm
          rcases List.mem_cons.mp hfr with rfl | hfr2
          · rcases List.mem_cons.mp hm with rfl | hm2
            · exact hregion_vis
            · exact c5 pend (List.mem_cons_of_mem _ (List.mem_cons_self _ _)) m hm2
          · exact c5 fr (List.mem_cons_of_mem _ (List.mem_cons_of_mem _ hfr2)) m hm
        · intro s hs
          rcases c6 s hs with h1 | ⟨rds, hrds, hname, hclo⟩
          · rcases List.mem_append.mp h1 with h2 | h2
            · exact Or.inl h2
            · have hs_eq : s = region := List.mem_singleton.mp h2
              refine Or.inr ⟨rdr, hrdr_mem, by rw [hrdr_name, hs_eq], ?_⟩
              intro y hy
              exact c5 rdr.outlives (List.mem_cons_self _ _) y hy
          · exact Or.inr ⟨rds, hrds, hname, hclo⟩
        · intro q
          rw [c7 q, addLivePoint_mem cx rv ⟨endIdx, 0⟩ hrv q]
          constructor
          · rintro ((rfl | hq) | ⟨s, hs, hns, ei, hei, rfl⟩)
            · exact Or.inr ⟨region, hregion_vis, hvis, endIdx, hski, rfl⟩
            · exact Or.inl hq
            · refine Or.inr ⟨s, hs, ?_, ei, hei, rfl⟩
              intro hsv
              exact hns (List.mem_append_left _ hsv)
          · rintro (hq | ⟨s, hs, hns, ei, hei, rfl⟩)
            · exact Or.inl (Or.inr hq)
            · by_cases hsr : s = region
              · subst hsr
                rw [hski] at hei
                have he : ei = endIdx := (Option.some.inj hei).symm
                subst he
                exact Or.inl (Or.inl rfl)
              · refine Or.inr ⟨s, hs, ?_, ei, hei, rfl⟩
                intro hsv
                rcases List.mem_append.mp hsv with h2 | h2
                · exact hns h2
                · exact hsr (List.mem_singleton.mp h2)

theorem populateFreeRegion_char (e : Env) (f : Func) (hef : e.graph.func = f)
    (hnodup : (f.regions.map RegionDecl.name).Nodup)
    (rd : RegionDecl) (hrd : rd ∈ f.regions)
    (st st' : RCK) (hfresh : lookupName st.regionMap rd.name = none)
    (h : populateFreeRegion e st rd = .ok st') :
    st'.regionMap = st.regionMap ++ [(rd.name, st.infer.defs.length)] ∧
    st'.infer.defs.length = st.infer.defs.length + 1 ∧
    (∀ w, w ≠ st.infer.defs.length →
      st'.infer.defs.get? w = st.infer.defs.get? w) ∧
    ((st'.infer.defs.get? st.infer.defs.length).map VarDef.capped = some true) ∧
    (∀ q, q ∈ st'.infer.regionValue st.infer.defs.length ↔
      (∃ b, b ∈ e.rpo ∧ ∃ i, i ≤ (FuncGraph.blockActions e.graph b).length ∧
        q = ⟨b, i⟩) ∨
      (∃ ei, FuncGraph.skolemizedEndIdx f rd.name = some ei ∧ q = ⟨ei, 0⟩) ∨
      (∃ s2 ei, Relation.TransGen (outlivesEdge f) rd.name s2 ∧
        FuncGraph.skolemizedEndIdx f s2 = some ei ∧ q = ⟨ei, 0⟩)) := by
  have hrvdef : st.regionVariable rd.name =
      (⟨{ st.infer with defs := st.infer.defs ++ [⟨rd.name, [], false⟩] },
        st.regionMap ++ [(rd.name, st.infer.defs.length)]⟩,
       st.infer.defs.length) := by
    rw [RCK.regionVariable, hfresh]
    rfl
  simp only [populateFreeRegion, hrvdef] at h
  rw [hef] at h
  rcases hski : FuncGraph.skolemizedEndIdx f rd.name with _ | endIdx
  · simp only [hski] at h
    exact Except.noConfusion h
  simp only [hski] at h
  rw [exceptBind_ok_iff] at h
  obtain ⟨r, hrun, hpure⟩ := h
  rcases r with ⟨cxr, visr⟩
  rw [exceptPure_ok_iff] at hpure
  subst hpure
  have hlen : st.infer.defs.length <
      ({ st.infer with defs := st.infer.defs ++ [⟨rd.name, [], false⟩] }
        : InferCtx).defs.length := by
    simp
  obtain ⟨s1, s2, s3⟩ := seedFold_char e st.infer.defs.length e.rpo
    { st.infer with defs := st.infer.defs ++ [⟨rd.name, [], false⟩] } hlen
  have hmidlen : st.infer.defs.length <
      (e.rpo.foldl (seedBlock e st.infer.defs.length)
        { st.infer with defs := st.infer.defs ++ [⟨rd.name, [], false⟩] }
        ).defs.length := by
    rw [s1]
    exact hlen
  have hbase : ({ st.infer with defs := st.infer.defs ++ [⟨rd.name, [], false⟩] }
      : InferCtx).defs.get? st.infer.defs.length = some ⟨rd.name, [], false⟩ :=
    List.get?_concat_length _ _
  have hbaseval : ({ st.infer with
      defs := st.infer.defs ++ [⟨rd.name, [], false⟩] }
      : InferCtx).regionValue st.infer.defs.length = [] := by
    rw [InferCtx.regionValue, hbase]
    rfl
  have hmid2len : st.infer.defs.length <
      ((e.rpo.foldl (seedBlock e st.infer.defs.length)
        { st.infer with defs := st.infer.defs ++ [⟨rd.name, [], false⟩] }
        ).addLivePoint st.infer.defs.length ⟨endIdx, 0⟩).defs.length := by
    rw [addLivePoint_length]
    exact hmidlen
  obtain ⟨c1, c2, c3, c4, c5, c6, c7⟩ :=
    populateOutlivesRun_char e f hef st.infer.defs.length
      (populateOutlivesFuel e) _ [rd.name] [rd.outlives] cxr visr hrun hmid2len
  have hcomplete : ∀ t, Relation.TransGen (outlivesEdge f) rd.name t →
      t ∈ visr := by
    intro t ht
    induction ht with
    | single h1 =>
      obtain ⟨rdx, hrdx, hxname, hxmem⟩ := h1
      have hx : rdx = rd :=
        List.inj_on_of_nodup_map hnodup hrdx hrd (by rw [hxname])
      rw [hx] at hxmem
      exact c5 rd.outlives (List.mem_singleton.mpr rfl) _ hxmem
    | tail hab hbc ih2 =>
      obtain ⟨rdb, hrdb, hbname, hcmem⟩ := hbc
      rcases c6 _ ih2 with h1 | ⟨rds, hrds, hsname, hclo⟩
      · have hb : rdb = rd := List.inj_on_of_nodup_map hnodup hrdb hrd
          (by rw [hbname, List.mem_singleton.mp h1])
        rw [hb] at hcmem
        exact c5 rd.outlives (List.mem_singleton.mpr rfl) _ hcmem
      · have hb : rds = rdb := List.inj_on_of_nodup_map hnodup hrds hrdb
          (by rw [hsname, hbname])
        exact hclo _ (by rw [hb]; exact hcmem)
  have hcxrlen : st.infer.defs.length < cxr.defs.length := by
    rw [c1, addLivePoint_length, s1]
    exact hlen
  refine ⟨rfl, ?_, ?_, ?_, ?_⟩
  · show (cxr.capVar st.infer.defs.length).defs.length = st.infer.defs.length + 1
    rw [capVar_length, c1, addLivePoint_length, s1]
    simp
  · intro w hw
    show (cxr.capVar st.infer.defs.length).defs.get? w = st.infer.defs.get? w
    rw [capVar_get_ne _ _ _ hw, c2 w hw, addLivePoint_get_ne _ _ _ _ hw,
      s2 w hw]
    exact get?_append_ne _ _ _ hw
  · show ((cxr.capVar st.infer.defs.length).defs.get?
      st.infer.defs.length).map VarDef.capped = some true
    exact capVar_capped cxr st.infer.defs.length hcxrlen
  · intro q
    show q ∈ (cxr.capVar st.infer.defs.length).regionValue st.infer.defs.length
      ↔ _
    rw [capVar_regionValue, c7 q,
      addLivePoint_mem _ st.infer.defs.length ⟨endIdx, 0⟩ hmidlen q, s3 q,
      hbaseval]
    constructor
    · rintro ((rfl | (hq | ⟨b, hb, i, hi, rfl⟩)) | ⟨s2x, hs2, hns2, ei, hei, rfl⟩)
      · exact Or.inr (Or.inl ⟨endIdx, rfl, rfl⟩)
      · exact absurd hq (List.not_mem_nil q)
      · exact Or.inl ⟨b, hb, i, hi, rfl⟩
      · rcases c4 s2x hs2 with h1 | ⟨fr, hfr, m, hm, hrt⟩
        · exact absurd h1 hns2
        · have hfr2 : fr = rd.outlives := List.mem_singleton.mp hfr
          rw [hfr2] at hm
          have hedge : outlivesEdge f rd.name m := ⟨rd, hrd, rfl, hm⟩
          exact Or.inr (Or.inr ⟨s2x, ei,
            Relation.TransGen.head' hedge hrt, hei, rfl⟩)
    · rintro (⟨b, hb, i, hi, rfl⟩ | ⟨ei, hei, rfl⟩ | ⟨s2x, ei, htg, hei, rfl⟩)
      · exact Or.inl (Or.inr (Or.inr ⟨b, hb, i, hi, rfl⟩))
      · have he : ei = endIdx := (Option.some.inj hei).symm
        subst he
        exact Or.inl (Or.inl rfl)
      · by_cases hs2 : s2x = rd.name
        · subst hs2
          rw [hski] at hei
          have he : ei = endIdx := (Option.some.inj hei).symm
          subst he
          exact Or.inl (Or.inl rfl)
        · refine Or.inr ⟨s2x, hcomplete s2x htg, ?_, ei, hei, rfl⟩
          intro hmem1
          exact hs2 (List.mem_singleton.mp hmem1)

theorem foldFreeRegions_char (e : Env) (f : Func) (hef : e.graph.func = f)
    (hnodup : (f.regions.map RegionDecl.name).Nodup) :
    ∀ (l : List RegionDecl), (∀ rd, rd ∈ l → rd ∈ f.regions) →
      (l.map RegionDecl.name).Nodup →
      ∀ (st st_f : RCK),
      List.foldlM (populateFreeRegion e) st l = .ok st_f →
      (∀ rd, rd ∈ l → lookupName st.regionMap rd.name = none) →
      ((∀ w, w < st.infer.defs.length →
        st_f.infer.defs.get? w = st.infer.defs.get? w) ∧
      (∀ n v, lookupName st.regionMap n = some v →
        lookupName st_f.regionMap n = some v) ∧
      st.infer.defs.length ≤ st_f.infer.defs.length ∧
      (∀ rd, rd ∈ l → ∃ rv, lookupName st_f.regionMap rd.name = some rv ∧
        ((st_f.infer.defs.get? rv).map VarDef.capped = some true) ∧
        (∀ q, q ∈ st_f.infer.regionValue rv ↔
          (∃ b, b ∈ e.rpo ∧ ∃ i, i ≤ (FuncGraph.blockActions e.graph b).length ∧
            q = ⟨b, i⟩) ∨
          (∃ ei, FuncGraph.skolemizedEndIdx f rd.name = some ei ∧ q = ⟨ei, 0⟩) ∨
          (∃ s2 ei, Relation.TransGen (outlivesEdge f) rd.name s2 ∧
            FuncGraph.skolemizedEndIdx f s2 = some ei ∧ q = ⟨ei, 0⟩)))) := by
  intro l
  induction l with
  | nil =>
    intro _ _ st st_f hfold _
    rw [List.foldlM_nil, exceptPure_ok_iff] at hfold
    subst hfold
    exact ⟨fun w _ => rfl, fun n v hv => hv, Nat.le_refl _,
      fun rd hrd => absurd hrd (List.not_mem_nil rd)⟩
  | cons rd rest ih =>
    intro hsub hnodupl st st_f hfold hdisj
    rw [List.foldlM_cons, exceptBind_ok_iff] at hfold
    obtain ⟨st', hstep, hrest⟩ := hfold
    have hrdmem : rd ∈ f.regions := hsub rd (List.mem_cons_self _ _)
    obtain ⟨p1, p2, p3, p4, p5⟩ :=
      populateFreeRegion_char e f hef hnodup rd hrdmem st st'
        (hdisj rd (List.mem_cons_self _ _)) hstep
    have hname_not : rd.name ∉ rest.map RegionDecl.name := by
      have h2 := hnodupl
      rw [List.map_cons, List.nodup_cons] at h2
      exact h2.1
    have hdisj2 : ∀ r2, r2 ∈ rest → lookupName st'.regionMap r2.name = none := by
      intro r2 hr2
      rw [p1,
        lookupName_append_of_none _ _ _ (hdisj r2 (List.mem_cons_of_mem _ hr2))]
      apply lookupName_singleton_ne
      intro hcontra
      exact hname_not (hcontra ▸ List.mem_map_of_mem RegionDecl.name hr2)
    have hnoduprest : (rest.map RegionDecl.name).Nodup := by
      have h2 := hnodupl
      rw [List.map_cons, List.nodup_cons] at h2
      exact h2.2
    obtain ⟨i1, i2, i3, i4⟩ :=
      ih (fun r2 hr2 => hsub r2 (List.mem_cons_of_mem _ hr2)) hnoduprest
        st' st_f hrest hdisj2
    refine ⟨?_, ?_, ?_, ?_⟩
    · intro w hw
      rw [i1 w (by rw [p2]; exact Nat.lt_succ_of_lt hw)]
      exact p3 w (Nat.ne_of_lt hw)
    · intro n v hv
      apply i2
      rw [p1]
      exact lookupName_append_of_some _ _ _ _ hv
    · calc st.infer.defs.length ≤ st'.infer.defs.length := by
            rw [p2]
            exact Nat.le_succ _
        _ ≤ st_f.infer.defs.length := i3
    · intro rd2 hrd2
      rcases List.mem_cons.mp hrd2 with hr | hr
      · rw [hr]
        refine ⟨st.infer.defs.length, ?_, ?_, ?_⟩
        · apply i2
          rw [p1,
            lookupName_append_of_none _ _ _ (hdisj rd (List.mem_cons_self _ _))]
          exact lookupName_singleton_self _ _
        · rw [i1 _ (by rw [p2]; exact Nat.lt_succ_self _)]
          exact p4
        · intro q
          rw [regionValue_congr (i1 _ (by rw [p2]; exact Nat.lt_succ_self _))]
          exact p5 q
      · exact i4 rd2 hr

theorem optionBind_some_iff {α β : Type} {x : Option α} {f : α → Option β}
    {b : β} : (x >>= f) = some b ↔ ∃ a, x = some a ∧ f a = some b := by
  cases x with
  | none => simp
  | some a => simp

theorem funcGraphNew_func (f : Func) (g : FuncGraph)
    (hg : funcGraphNew f = some g) : g.func = f := by
  simp only [funcGraphNew, optionBind_some_iff] at hg
  obtain ⟨roots, _, cs, _, ss, _, start, _, hlast⟩ := hg
  have h2 := Option.some.inj hlast
  rw [← h2]

/-- Counterexample to claim C4 as stated: in `funcC4` the declared
block `B2` (index 1, zero actions) is part of the analyzed graph
(`numNodes = 3`), so the claim demands the point `(1, 0)` in the
seeded value of the free region `'a`; but the seeding loop runs over
the reverse post-order only, `B2` is unreachable from START, and the
seeded value `[(2,1), (2,0), (0,0)]` omits `(1, 0)` (the variable is
capped, as claimed). -/
theorem c4_seeding_cex :
    seededRegionValue funcC4 "a" =
      .ok ([⟨2, 1⟩, ⟨2, 0⟩, ⟨0, 0⟩], true) ∧
    funcGraphNew funcC4 = some ⟨funcC4, 0, [[2], [1], []]⟩ ∧
    (FuncGraph.blockActions ⟨funcC4, 0, [[2], [1], []]⟩ 1).length = 0 ∧
    1 < FuncGraph.numNodes ⟨funcC4, 0, [[2], [1], []]⟩ ∧
    (⟨1, 0⟩ : Point) ∉ ([⟨2, 1⟩, ⟨2, 0⟩, ⟨0, 0⟩] : List Point) :=
  ⟨rfl, rfl, rfl, by decide, by decide⟩

/-- Claim C4, amended: for every declared free region `rd` (with the
declared region names distinct), right after the free-region seeding
loop of `populate_inference` the region's variable holds exactly:
every point `(b, i)` with `i ≤ len(actions(b))` for every block `b` in
the reverse post-order from START (not every block of the analyzed
graph), the region's own skolemized-end point, and the skolemized-end
point of every region it transitively outlives through the declared
outlives clauses; and the variable is capped. -/
theorem c4_free_region_seeding (f : Func) (g : FuncGraph)
    (hg : funcGraphNew f = some g)
    (rd : RegionDecl) (hrd : rd ∈ f.regions)
    (hnodup : (f.regions.map RegionDecl.name).Nodup)
    (val : List Point) (capped : Bool)
    (hval : seededRegionValue f rd.name = .ok (val, capped)) :
    (∀ q : Point, q ∈ val ↔
      (∃ b, b ∈ (mkEnv g).rpo ∧
        ∃ i, i ≤ (FuncGraph.blockActions g b).length ∧ q = ⟨b, i⟩) ∨
      (∃ ei, FuncGraph.skolemizedEndIdx f rd.name = some ei ∧ q = ⟨ei, 0⟩) ∨
      (∃ s2 ei, Relation.TransGen (outlivesEdge f) rd.name s2 ∧
        FuncGraph.skolemizedEndIdx f s2 = some ei ∧ q = ⟨ei, 0⟩)) ∧
    capped = true := by
  have hgf : g.func = f := funcGraphNew_func f g hg
  simp only [seededRegionValue, hg, Option.elim] at hval
  rw [exceptBind_ok_iff] at hval
  obtain ⟨g2, hg2, hval⟩ := hval
  have hg2e : g = g2 := Except.ok.inj hg2
  subst hg2e
  rw [exceptBind_ok_iff] at hval
  obtain ⟨st_f, hfold, hval⟩ := hval
  rcases hlook : lookupName st_f.regionMap rd.name with _ | rv
  · rw [hlook] at hval
    simp only [Option.elim] at hval
    rw [exceptBind_ok_iff] at hval
    obtain ⟨rv2, hrv2, _⟩ := hval
    exact Except.noConfusion hrv2
  rw [hlook] at hval
  simp only [Option.elim] at hval
  rw [exceptBind_ok_iff] at hval
  obtain ⟨rv2, hrv2, hpure⟩ := hval
  have hrv2e : rv = rv2 := Except.ok.inj hrv2
  subst hrv2e
  rw [exceptPure_ok_iff] at hpure
  have hfst : st_f.infer.regionValue rv = val := congrArg Prod.fst hpure
  have hsnd : ((st_f.infer.defs.get? rv).map VarDef.capped).getD false =
      capped := congrArg Prod.snd hpure
  have hef : (mkEnv g).graph.func = f := hgf
  obtain ⟨_, _, _, i4⟩ := foldFreeRegions_char (mkEnv g) f hef hnodup
    f.regions (fun _ h => h) hnodup ⟨InferCtx.empty, []⟩ st_f hfold
    (fun _ _ => rfl)
  obtain ⟨rv3, hlook3, hcap3, hchar3⟩ := i4 rd hrd
  rw [hlook] at hlook3
  have hrv3e : rv3 = rv := (Option.some.inj hlook3).symm
  subst hrv3e
  constructor
  · intro q
    rw [← hfst]
    exact hchar3 q
  · rw [← hsnd, hcap3]
    rfl

/-- Witness for `c4_free_region_seeding` at the concrete fixture
`funcC4` with region `'a`. -/
theorem c4_free_region_seeding_witness :
    (∀ q : Point, q ∈ ([⟨2, 1⟩, ⟨2, 0⟩, ⟨0, 0⟩] : List Point) ↔
      (∃ b, b ∈ (mkEnv ⟨funcC4, 0, [[2], [1], []]⟩).rpo ∧
        ∃ i, i ≤ (FuncGraph.blockActions
          (⟨funcC4, 0, [[2], [1], []]⟩ : FuncGraph) b).length ∧ q = ⟨b, i⟩) ∨
      (∃ ei, FuncGraph.skolemizedEndIdx funcC4 "a" = some ei ∧ q = ⟨ei, 0⟩) ∨
      (∃ s2 ei, Relation.TransGen (outlivesEdge funcC4) "a" s2 ∧
        FuncGraph.skolemizedEndIdx funcC4 s2 = some ei ∧ q = ⟨ei, 0⟩)) ∧
    true = true :=
  c4_free_region_seeding funcC4 ⟨funcC4, 0, [[2], [1], []]⟩ rfl ⟨"a", []⟩
    (by decide) (by decide) [⟨2, 1⟩, ⟨2, 0⟩, ⟨0, 0⟩] true rfl

/-! ### Region roots (claim C7) -/

theorem mem_addName (l : List RegName) (n x : RegName) :
    x ∈ addName l n ↔ x = n ∨ x ∈ l := by
  rw [addName]
  by_cases h : n ∈ l
  · rw [if_pos h]
    constructor
    · exact fun hx => Or.inr hx
    · rintro (rfl | hx)
      · exact h
      · exact hx
  · rw [if_neg h]
    exact List.mem_cons

theorem mem_foldl_addName :
    ∀ (ws l : List RegName) (x : RegName),
      x ∈ ws.foldl addName l ↔ x ∈ ws ∨ x ∈ l := by
  intro ws
  induction ws with
  | nil =>
    intro l x
    simp
  | cons w ws ih =>
    intro l x
    rw [List.foldl_cons, ih, mem_addName, List.mem_cons]
    tauto

theorem rootsDfsRun_nilF (succs : RegName → List RegName) (fuel : Nat)
    (st : RootsSt) : rootsDfsRun succs fuel st [] = st := by
  cases fuel with
  | zero => rw [rootsDfsRun]
  | succ n => rw [rootsDfsRun]

theorem rootsDfsRun_pop (succs : RegName → List RegName) (fuel : Nat)
    (st : RootsSt) (stack : List RegName) (frames : List RootsFrame) :
    rootsDfsRun succs (fuel + 1) st ((stack, []) :: frames) =
      rootsDfsRun succs fuel st frames := by
  rw [rootsDfsRun]

theorem rootsDfsRun_skip_stack (succs : RegName → List RegName) (fuel : Nat)
    (st : RootsSt) (stack : List RegName) (r : RegName) (pend : List RegName)
    (frames : List RootsFrame) (h : r ∈ stack) :
    rootsDfsRun succs (fuel + 1) st ((stack, r :: pend) :: frames) =
      rootsDfsRun succs fuel st ((stack, pend) :: frames) := by
  rw [rootsDfsRun, if_pos h]

theorem rootsDfsRun_skip_visited_nil (succs : RegName → List RegName)
    (fuel : Nat) (st : RootsSt) (r : RegName) (pend : List RegName)
    (frames : List RootsFrame) (h3 : r ∈ st.visited) :
    rootsDfsRun succs (fuel + 1) st (([], r :: pend) :: frames) =
      rootsDfsRun succs fuel st (([], pend) :: frames) := by
  rw [rootsDfsRun, if_neg (List.not_mem_nil r)]
  simp only [List.isEmpty_nil, if_true]
  rw [if_pos h3]

theorem rootsDfsRun_push (succs : RegName → List RegName) (fuel : Nat)
    (st : RootsSt) (stack : List RegName) (r : RegName) (pend : List RegName)
    (frames : List RootsFrame) (h1 : r ∉ stack) (h2 : stack ≠ [])
    (h3 : r ∉ st.visited) :
    rootsDfsRun succs (fuel + 1) st ((stack, r :: pend) :: frames) =
      rootsDfsRun succs fuel
        ⟨addName st.hasPred r, addName st.visited r⟩
        ((stack ++ [r], succs r) :: (stack, pend) :: frames) := by
  rw [rootsDfsRun, if_neg h1]
  have hbe : stack.isEmpty = false := by
    cases stack with
    | nil => exact absurd rfl h2
    | cons a l => rfl
  simp only [hbe, Bool.false_eq_true, if_false]
  rw [if_neg h3]

theorem rootsDfsRun_push_nil (succs : RegName → List RegName) (fuel : Nat)
    (st : RootsSt) (r : RegName) (pend : List RegName)
    (frames : List RootsFrame) (h3 : r ∉ st.visited) :
    rootsDfsRun succs (fuel + 1) st (([], r :: pend) :: frames) =
      rootsDfsRun succs fuel
        ⟨st.hasPred, addName st.visited r⟩
        (([r], succs r) :: ([], pend) :: frames) := by
  rw [rootsDfsRun, if_neg (List.not_mem_nil r)]
  simp only [List.isEmpty_nil, if_true]
  rw [if_neg h3]
  rfl

theorem succsChain_append (succs : RegName → List RegName) :
    ∀ (ws : List RegName) (z c : RegName),
      succsChain succs (ws ++ [z]) c ↔
        succsChain succs ws z ∧ succs z = [c] := by
  intro ws
  induction ws with
  | nil =>
    intro z c
    simp [succsChain]
  | cons w ws ih =>
    intro z c
    cases ws with
    | nil =>
      simp only [List.cons_append, List.nil_append, succsChain]
    | cons w2 ws2 =>
      simp only [List.cons_append, succsChain]
      have ih2 := ih z c
      rw [List.cons_append] at ih2
      simp only [List.append_eq]
      rw [ih2]
      tauto

theorem succsChain_of_consec (succs : RegName → List RegName) :
    ∀ (l : List RegName) (c : RegName),
      succsConsec succs (c :: l) → succsChain succs l.reverse c := by
  intro l
  induction l with
  | nil =>
    intro c _
    simp [succsChain]
  | cons a l ih =>
    intro c h
    have h2 : succs a = [c] ∧ succsConsec succs (a :: l) := h
    rw [List.reverse_cons, succsChain_append]
    exact ⟨ih a h2.2, h2.1⟩

theorem rootsDfs_descend (succs : RegName → List RegName) (c : RegName) :
    ∀ (ws : List RegName) (w : RegName) (bs : List RegName) (st : RootsSt)
      (rest : List RootsFrame) (fuel : Nat),
      bs ≠ [] →
      (w :: ws).Nodup →
      (∀ x, x ∈ w :: ws → x ∉ bs) →
      (∀ x, x ∈ w :: ws → x ∉ st.visited) →
      succsChain succs (w :: ws) c →
      c ∈ bs →
      rootsDfsRun succs (2 * ws.length + 4 + fuel) st ((bs, [w]) :: rest) =
        rootsDfsRun succs fuel
          ⟨(w :: ws).foldl addName st.hasPred,
           (w :: ws).foldl addName st.visited⟩ rest := by
  intro ws
  induction ws with
  | nil =>
    intro w bs st rest fuel hbs hnd hnb hnv hch hc
    rw [show 2 * ([] : List RegName).length + 4 + fuel = ((fuel + 1) + 1 + 1) + 1
      from by simp only [List.length_nil]; omega]
    rw [rootsDfsRun_push succs _ st bs w [] rest
      (hnb w (List.mem_cons_self _ _)) hbs (hnv w (List.mem_cons_self _ _))]
    have hsw : succs w = [c] := hch
    rw [hsw]
    rw [rootsDfsRun_skip_stack _ _ _ _ c [] _ (List.mem_append_left _ hc)]
    rw [rootsDfsRun_pop, rootsDfsRun_pop]
    rfl
  | cons w2 ws ih =>
    intro w bs st rest fuel hbs hnd hnb hnv hch hc
    rw [show 2 * (w2 :: ws).length + 4 + fuel
        = (2 * ws.length + 4 + (fuel + 1)) + 1
      from by rw [List.length_cons]; omega]
    rw [rootsDfsRun_push succs _ st bs w [] rest
      (hnb w (List.mem_cons_self _ _)) hbs (hnv w (List.mem_cons_self _ _))]
    have hsw : succs w = [w2] := hch.1
    rw [hsw]
    rw [ih w2 (bs ++ [w]) ⟨addName st.hasPred w, addName st.visited w⟩
      ((bs, []) :: rest) (fuel + 1)
      (by simp)
      ((List.nodup_cons.mp hnd).2)
      (by
        intro x hx hmem
        rcases List.mem_append.mp hmem with hm | hm
        · exact hnb x (List.mem_cons_of_mem _ hx) hm
        · have hxw : x = w := List.mem_singleton.mp hm
          exact (List.nodup_cons.mp hnd).1 (hxw ▸ hx))
      (by
        intro x hx hmem
        rcases (mem_addName _ _ _).mp hmem with hxw | hm
        · exact (List.nodup_cons.mp hnd).1 (hxw ▸ hx)
        · exact hnv x (List.mem_cons_of_mem _ hx) hm)
      hch.2
      (List.mem_append_left _ hc)]
    rw [rootsDfsRun_pop]
    rfl

theorem rootsDfsRun_visited_root (succs : RegName → List RegName)
    (st : RootsSt) (r : RegName) (fuel : Nat) (h : r ∈ st.visited)
    (hf : 2 ≤ fuel) :
    rootsDfsRun succs fuel st [([], [r])] = st := by
  obtain ⟨k, rfl⟩ : ∃ k, fuel = (k + 1) + 1 := ⟨fuel - 2, by omega⟩
  rw [rootsDfsRun_skip_visited_nil _ _ _ _ _ _ h, rootsDfsRun_pop,
    rootsDfsRun_nilF]

theorem rootsExtract_cycle (regions : List RegionDecl) (n : RegName)
    (names : List RegName)
    (hmap : regions.map RegionDecl.name = n :: names)
    (hnodup : (n :: names).Nodup)
    (hsuccn : outlivesSuccs regions n =
      [(n :: names).getLast (List.cons_ne_nil n names)])
    (hconsec : succsConsec (outlivesSuccs regions) (n :: names)) :
    regionRootsExtract regions = [n] := by
  have hmap2 : (regions.map fun rd => rd.name) = n :: names := hmap
  have hlen : regions.length = names.length + 1 := by
    have h2 := congrArg List.length hmap2
    simpa using h2
  have hfuel : 2 * names.length + 6 ≤ rootsFuel regions := by
    rw [rootsFuel, hlen]
    omega
  have hnmem : n ∉ names := (List.nodup_cons.mp hnodup).1
  have haddnil : addName [] n = [n] := by
    rw [addName, if_neg (List.not_mem_nil n)]
  simp only [regionRootsExtract]
  have hfold : ∀ (l : List RegionDecl) (st : RootsSt),
      l.foldl (fun st rd => rootsDfsRun (outlivesSuccs regions)
        (rootsFuel regions) st [([], [rd.name])]) st
        = (l.map fun rd => rd.name).foldl
            (fun st nm => rootsDfsRun (outlivesSuccs regions)
              (rootsFuel regions) st [([], [nm])]) st := by
    intro l
    induction l with
    | nil => intro st; rfl
    | cons rd l ih =>
      intro st
      rw [List.foldl_cons, List.map_cons, List.foldl_cons, ih]
  rw [hfold, hmap2]
  simp only [List.foldl_cons]
  rcases hrev : names.reverse with _ | ⟨w, ws2⟩
  · rw [List.reverse_eq_nil_iff] at hrev
    subst hrev
    have hstep1 : rootsDfsRun (outlivesSuccs regions) (rootsFuel regions)
        ⟨[], []⟩ [([], [n])] = (⟨[], [n]⟩ : RootsSt) := by
      obtain ⟨k, hk⟩ : ∃ k, rootsFuel regions = (((k + 1) + 1) + 1) + 1 :=
        ⟨rootsFuel regions - 4, by omega⟩
      rw [hk]
      rw [rootsDfsRun_push_nil _ _ _ n [] [] (List.not_mem_nil n)]
      rw [show outlivesSuccs regions n = [n] from hsuccn]
      rw [rootsDfsRun_skip_stack _ _ _ _ n [] _ (List.mem_singleton.mpr rfl)]
      rw [rootsDfsRun_pop, rootsDfsRun_pop, rootsDfsRun_nilF, haddnil]
    simp only [hstep1]
    rw [List.foldl_nil, List.filter_cons]
    have hno : ¬ n ∈ (⟨[], [n]⟩ : RootsSt).hasPred := List.not_mem_nil n
    rw [if_pos (decide_eq_true hno)]
    rfl
  · have hwslen : names.length = ws2.length + 1 := by
      have h2 := congrArg List.length hrev
      simpa using h2
    have hlast : (n :: names).getLast (List.cons_ne_nil n names) = w := by
      have h1 := List.getLast?_eq_getLast (n :: names) (List.cons_ne_nil n names)
      have h2 := List.head?_reverse (n :: names)
      rw [List.reverse_cons, hrev] at h2
      rw [h1] at h2
      simpa using h2.symm
    rw [hlast] at hsuccn
    have hndrev : (w :: ws2).Nodup := by
      rw [← hrev]
      exact List.nodup_reverse.mpr (List.nodup_cons.mp hnodup).2
    have hmemrev : ∀ x, x ∈ w :: ws2 ↔ x ∈ names := by
      intro x
      rw [← hrev, List.mem_reverse]
    have hstep1 : rootsDfsRun (outlivesSuccs regions) (rootsFuel regions)
        ⟨[], []⟩ [([], [n])]
        = (⟨(w :: ws2).foldl addName [], (w :: ws2).foldl addName [n]⟩
            : RootsSt) := by
      obtain ⟨f2, hf2a, hf2⟩ : ∃ f2, 1 ≤ f2 ∧
          rootsFuel regions = (2 * ws2.length + 4 + f2) + 1 :=
        ⟨rootsFuel regions - (2 * ws2.length + 5), by omega, by omega⟩
      rw [hf2]
      rw [rootsDfsRun_push_nil _ _ _ n [] [] (List.not_mem_nil n)]
      rw [hsuccn]
      rw [rootsDfs_descend (outlivesSuccs regions) n ws2 w [n]
        ⟨[], addName [] n⟩ [([], [])] f2
        (List.cons_ne_nil n [])
        hndrev
        (by
          intro x hx hmem
          have hxn : x = n := List.mem_singleton.mp hmem
          exact hnmem (hxn ▸ (hmemrev x).mp hx))
        (by
          intro x hx hmem
          rw [haddnil] at hmem
          have hxn : x = n := List.mem_singleton.mp hmem
          exact hnmem (hxn ▸ (hmemrev x).mp hx))
        (by
          rw [← hrev]
          exact succsChain_of_consec (outlivesSuccs regions) names n hconsec)
        (List.mem_singleton.mpr rfl)]
      obtain ⟨f3, hf3⟩ : ∃ f3, f2 = f3 + 1 := ⟨f2 - 1, by omega⟩
      rw [hf3, rootsDfsRun_pop, rootsDfsRun_nilF, haddnil]
    simp only [hstep1]
    have hvis : ∀ x, x ∈ names → x ∈ ((w :: ws2).foldl addName [n]) := by
      intro x hx
      exact (mem_foldl_addName _ _ _).mpr (Or.inl ((hmemrev x).mpr hx))
    have hconst : ∀ (l : List RegName), (∀ x, x ∈ l → x ∈ names) →
        l.foldl (fun st nm => rootsDfsRun (outlivesSuccs regions)
          (rootsFuel regions) st [([], [nm])])
          (⟨(w :: ws2).foldl addName [], (w :: ws2).foldl addName [n]⟩
            : RootsSt)
          = ⟨(w :: ws2).foldl addName [], (w :: ws2).foldl addName [n]⟩ := by
      intro l
      induction l with
      | nil => intro _; rfl
      | cons x l ih =>
        intro hl
        rw [List.foldl_cons,
          rootsDfsRun_visited_root _ _ _ _
            (hvis x (hl x (List.mem_cons_self _ _))) (by omega),
          ih (fun y hy => hl y (List.mem_cons_of_mem _ hy))]
    simp only [hconst names (fun y hy => hy)]
    rw [List.filter_cons]
    have hnhp : ¬ n ∈ ((w :: ws2).foldl addName ([] : List RegName)) := by
      intro hmem
      rcases (mem_foldl_addName _ _ _).mp hmem with h2 | h2
      · exact hnmem ((hmemrev n).mp h2)
      · exact List.not_mem_nil n h2
    rw [if_pos (decide_eq_true hnhp)]
    have hrest : names.filter
        (fun nm => decide (¬ nm ∈
          ((w :: ws2).foldl addName ([] : List RegName)))) = [] := by
      rw [List.filter_eq_nil_iff]
      intro x hx h2
      have h3 : ¬ x ∈ ((w :: ws2).foldl addName ([] : List RegName)) :=
        of_decide_eq_true h2
      exact h3 ((mem_foldl_addName _ _ _).mpr (Or.inl ((hmemrev x).mpr hx)))
    rw [hrest]

theorem mapM_option_char {α β : Type} (f : α → Option β) :
    ∀ (l : List α) (l2 : List β), l.mapM f = some l2 →
      l2.length = l.length ∧
      (∀ i a, l.get? i = some a →
        ∃ b, f a = some b ∧ l2.get? i = some b) := by
  intro l
  induction l with
  | nil =>
    intro l2 h
    have h2 : ([] : List β) = l2 := Option.some.inj h
    subst h2
    exact ⟨rfl, fun i a ha => absurd ha (by simp)⟩
  | cons a l ih =>
    intro l2 h
    rw [List.mapM_cons, optionBind_some_iff] at h
    obtain ⟨b, hb, h⟩ := h
    rw [optionBind_some_iff] at h
    obtain ⟨bs, hbs, h⟩ := h
    have h2 : b :: bs = l2 := Option.some.inj h
    subst h2
    obtain ⟨ih1, ih2⟩ := ih bs hbs
    refine ⟨by simp [ih1], ?_⟩
    intro i x hx
    cases i with
    | zero =>
      have hax : a = x := Option.some.inj hx
      exact ⟨b, hax ▸ hb, rfl⟩
    | succ i =>
      exact ih2 i x hx

theorem noSucc_roots (f : Func) (g : FuncGraph) (hg : funcGraphNew f = some g)
    (i : Nat) (hi : i < f.blocks.length)
    (hs : (f.blocks.get ⟨i, hi⟩).succs = []) :
    ∃ rootsIdx,
      (regionRootsExtract f.regions).mapM
        (fun rn => FuncGraph.skolemizedEndIdx f rn) = some rootsIdx ∧
      FuncGraph.successors g i = rootsIdx := by
  simp only [funcGraphNew, optionBind_some_iff] at hg
  obtain ⟨roots, hroots, cs, hcs, ss, hss, start, hstart, hlast⟩ := hg
  have hgdef : ({ func := f, startBlock := start, succ := cs ++ ss }
      : FuncGraph) = g := Option.some.inj hlast
  refine ⟨roots, hroots, ?_⟩
  rw [← hgdef]
  show ((cs ++ ss).get? i).getD [] = roots
  obtain ⟨hcslen, hcsget⟩ := mapM_option_char _ f.blocks cs hcs
  have hgi : f.blocks.get? i = some (f.blocks.get ⟨i, hi⟩) :=
    List.get?_eq_get hi
  obtain ⟨succs_i, hfa, hcsi⟩ := hcsget i _ hgi
  rw [codeBlockSuccs, hs] at hfa
  simp [List.mapM.loop] at hfa
  have hget : (cs ++ ss).get? i = some succs_i := by
    rw [List.get?_append (by rw [hcslen]; exact hi)]
    exact hcsi
  rw [hget]
  simp [hfa]

/-- Counterexample to claim C7's root characterization, taken from the
repository's own test `root_cycle_reachable_from_outside`: in
`regionsC7` the only roots-graph predecessor of `'b` is `'a`, and the
edge `'a -> 'b` lies on the cycle `'a <-> 'b` (the reverse edge
`'b -> 'a` also exists), so `'b` has no non-cyclic predecessor; the
claim therefore demands that `'b` be a root, yet the extracted roots
are exactly `["c"]`. -/
theorem c7_roots_cex :
    regionRootsExtract regionsC7 = ["c"] ∧
    "b" ∉ regionRootsExtract regionsC7 ∧
    (∀ p, "b" ∈ outlivesSuccs regionsC7 p → p = "a") ∧
    "a" ∈ outlivesSuccs regionsC7 "b" ∧
    "b" ∈ outlivesSuccs regionsC7 "a" := by
  refine ⟨by decide, by decide, ?_, by decide, by decide⟩
  intro p h
  simp [outlivesSuccs, regionsC7] at h
  rcases h with h1 | h1 | h1
  rfl

/-- Claim C7, amended.  Part one is as claimed: in the constructed
function graph, every code block with no declared successors has as
CFG successors exactly the root skolemized-end blocks.  Part two
replaces the claimed root characterization (`no non-cyclic
predecessor`, falsified by `c7_roots_cex`): for a family of regions
forming a single outlives cycle (each declared region's roots-graph
successor list is exactly the singleton of its predecessor in
declaration order, wrapping around), exactly the first declared
member is selected as a root. -/
theorem c7_graph_roots_amended :
    (∀ (f : Func) (g : FuncGraph), funcGraphNew f = some g →
      ∀ (i : Nat) (hi : i < f.blocks.length),
        (f.blocks.get ⟨i, hi⟩).succs = [] →
        ∃ rootsIdx,
          (regionRootsExtract f.regions).mapM
            (fun rn => FuncGraph.skolemizedEndIdx f rn) = some rootsIdx ∧
          FuncGraph.successors g i = rootsIdx) ∧
    (∀ (regions : List RegionDecl) (n : RegName) (names : List RegName),
      regions.map RegionDecl.name = n :: names →
      (n :: names).Nodup →
      outlivesSuccs regions n =
        [(n :: names).getLast (List.cons_ne_nil n names)] →
      succsConsec (outlivesSuccs regions) (n :: names) →
      regionRootsExtract regions = [n]) :=
  ⟨fun f g hg i hi hs => noSucc_roots f g hg i hi hs,
   fun regions n names hmap hnodup hsuccn hconsec =>
     rootsExtract_cycle regions n names hmap hnodup hsuccn hconsec⟩

/-- Witness for `c7_graph_roots_amended`: part one at `funcC4`'s START
block (no declared successors), part two at the two-region cycle
`'a: 'b`, `'b: 'a` of the repository's `root_cycle` test. -/
theorem c7_graph_roots_witness :
    (∃ rootsIdx,
      (regionRootsExtract funcC4.regions).mapM
        (fun rn => FuncGraph.skolemizedEndIdx funcC4 rn) = some rootsIdx ∧
      FuncGraph.successors ⟨funcC4, 0, [[2], [1], []]⟩ 0 = rootsIdx) ∧
    regionRootsExtract [⟨"a", ["b"]⟩, ⟨"b", ["a"]⟩] = ["a"] :=
  ⟨c7_graph_roots_amended.1 funcC4 ⟨funcC4, 0, [[2], [1], []]⟩ rfl 0
      (by decide) (by decide),
   c7_graph_roots_amended.2 [⟨"a", ["b"]⟩, ⟨"b", ["a"]⟩] "a" ["b"]
      rfl (by decide) (by decide) ⟨by decide, trivial⟩⟩

end Borrowck
